import Mathlib

/-!
Verification development for the PVAnalysis repository.

Part A embeds `src/pvsilhouette/UlrichEnvelope.py`: the three-branch
closed-form solver for the Ulrich streamline cubic (`velrho`, lines 11-39),
the Keplerian velocity branch (`kepvel`, lines 41-46) and the rotating basis
triad (`rotbase`, lines 54-61).  numpy float arithmetic is modelled by exact
real arithmetic; elementwise array formulas become scalar functions of one
sample.  `x.clip(lo, hi)` is `min (max x lo) hi`, `np.sqrt` is `Real.sqrt`,
a float power `x ** e` is the real power `x ^ (e : ℝ)` (all bases that the
selected branch feeds to a fractional power are shown nonnegative, where the
two agree), `np.cos`/`np.arccos` are `Real.cos`/`Real.arccos`.

Part B embeds `src/pvfitting/mockpvd.py` (`MockPVD.generate_pvd`,
`generate_mockpvd`): cubes are lists of velocity-channel rows, each row the
flattened spatial samples.  The helpers `rho2rhocube` and
`Nested3DGrid.integrate_along` live in repository files that are not under
`src/` (`pvfitting/precalculation.py`, `pvfitting/grid.py`); they are
modelled from the spec where marked.  `scipy.signal.convolve(..., 'same')`
is modelled as the centred slice of the full zero-padded convolution.

Part C embeds the fit-result table round trip of
`src/pvsilhouette/_pvsilhouette.py` (`writeout_fitres` / `read_fitres`) over
an explicit serialization alphabet.
-/

set_option maxHeartbeats 1600000

noncomputable section

open scoped Classical

/-- Radius clip of `velrho` and `kepvel`: `radius.clip(1e-10, None)`
(UlrichEnvelope.py line 12 and line 42). -/
def rcl (radius : ℝ) : ℝ := max radius 1e-10

/-- Clipped absolute cosine of `velrho`: `np.abs(np.cos(theta)).clip(1e-10, 1)`
(UlrichEnvelope.py lines 13-14). -/
def mucl (theta : ℝ) : ℝ := min (max |Real.cos theta| 1e-10) 1

/-- Cubic coefficient `p = (radius - 1) / 3` of `velrho`
(UlrichEnvelope.py line 15), with the clipped radius. -/
def pco (radius : ℝ) : ℝ := (rcl radius - 1) / 3

/-- Cubic coefficient `q = mu * radius / 2` of `velrho`
(UlrichEnvelope.py line 16), with the clipped inputs. -/
def qco (radius theta : ℝ) : ℝ := mucl theta * rcl radius / 2

/-- Branch of `velrho` for `r >= 1` (UlrichEnvelope.py lines 20-23):
`D = q**2 + p**3`, `qD = q * D**(-1/2)`,
`mu0 = D**(1/6) * ((1 + qD)**(1/3) - (1 - qD)**(1/3))`. -/
def mu0A (p q : ℝ) : ℝ :=
  (q ^ 2 + p ^ 3) ^ ((1 : ℝ) / 6) *
    ((1 + q * (q ^ 2 + p ^ 3) ^ (-(1 : ℝ) / 2)) ^ ((1 : ℝ) / 3) -
     (1 - q * (q ^ 2 + p ^ 3) ^ (-(1 : ℝ) / 2)) ^ ((1 : ℝ) / 3))

/-- Branch of `velrho` for `r < 1` and `D = q**2 - (-p)**3 >= 0`
(UlrichEnvelope.py lines 24-28):
`mu0 = (q + sqrt D)**(1/3) + (q - sqrt D)**(1/3)`. -/
def mu0B (p q : ℝ) : ℝ :=
  (q + Real.sqrt (q ^ 2 - max (-p) 0 ^ 3)) ^ ((1 : ℝ) / 3) +
  (q - Real.sqrt (q ^ 2 - max (-p) 0 ^ 3)) ^ ((1 : ℝ) / 3)

/-- Branch of `velrho` for `D = q**2 - (-p)**3 < 0` (UlrichEnvelope.py
lines 29-32): `mu0 = 2 sqrt(-p) cos(arccos(q * (-p)**(-3/2)) / 3)`. -/
def mu0C (p q : ℝ) : ℝ :=
  2 * Real.sqrt (max (-p) 0) *
    Real.cos (Real.arccos (q * max (-p) 0 ^ (-(3 : ℝ) / 2)) / 3)

/-- Streamline root `mu0` computed by `velrho` (UlrichEnvelope.py lines
11-32): the clipped `p`, `q` are formed and exactly one of the three
branch formulas is selected by the masks `radius >= 1`,
`(radius < 1) * (D >= 0)` and `D < 0`, where `p_minus = (-p).clip(0)` and
`D = q**2 - p_minus**3`. -/
def velrhoMu0 (radius theta : ℝ) : ℝ :=
  if 1 ≤ rcl radius then mu0A (pco radius) (qco radius theta)
  else if 0 ≤ qco radius theta ^ 2 - max (-pco radius) 0 ^ 3 then
    mu0B (pco radius) (qco radius theta)
  else mu0C (pco radius) (qco radius theta)

/-- Keplerian branch `kepvel` (UlrichEnvelope.py lines 41-46):
`r = radius.clip(1e-10) * sin(theta)`, returns
`(vr, vt, vp) = (0, 0, 1 / sqrt r)`. -/
def kepvel (radius theta : ℝ) : ℝ × ℝ × ℝ :=
  (0, 0, 1 / Real.sqrt (rcl radius * Real.sin theta))

/-- Basis triad `rotbase` (UlrichEnvelope.py lines 54-61): the three
envelope-frame unit vectors `er`, `et`, `ep` as functions of the polar
angle `t` and azimuth `p`. -/
def rotbase (t p : ℝ) : (ℝ × ℝ × ℝ) × (ℝ × ℝ × ℝ) × (ℝ × ℝ × ℝ) :=
  ((Real.sin t * Real.sin p, -(Real.sin t) * Real.cos p, Real.cos t),
   (Real.cos t * Real.sin p, -(Real.cos t) * Real.cos p, -Real.sin t),
   (Real.cos p, Real.sin p, 0))

/-- Euclidean inner product of two coordinate triples. -/
def dot3 (a b : ℝ × ℝ × ℝ) : ℝ := a.1 * b.1 + a.2.1 * b.2.1 + a.2.2 * b.2.2

/-- Mask of `velrho` branch A (UlrichEnvelope.py line 20): `radius >= 1`
after the radius clip. -/
def condA (radius : ℝ) : Prop := 1 ≤ rcl radius

/-- Mask of `velrho` branch B (UlrichEnvelope.py line 27):
`(radius < 1) * (D >= 0)` with `D = q**2 - p_minus**3`,
`p_minus = (-p).clip(0, None)`. -/
def condB (radius theta : ℝ) : Prop :=
  rcl radius < 1 ∧ 0 ≤ qco radius theta ^ 2 - max (-pco radius) 0 ^ 3

/-- Mask of `velrho` branch C (UlrichEnvelope.py line 30): `D < 0`. -/
def condC (radius theta : ℝ) : Prop :=
  qco radius theta ^ 2 - max (-pco radius) 0 ^ 3 < 0

end


noncomputable section

/-- Sum of a list of reals (used for kernel normalisation and integrals). -/
def sumR (l : List ℝ) : ℝ := l.foldr (· + ·) 0

/-- Maximum entry of a list of reals against a floor of 0.  The optical-depth
cubes it is applied to are elementwise nonnegative, where this agrees with
`np.nanmax`. -/
def maxR (l : List ℝ) : ℝ := l.foldr max 0

/-- Maximum entry of a cube (list of velocity-channel rows). -/
def maxCube (c : List (List ℝ)) : ℝ := maxR (c.map maxR)

/-- Total of a cube's entries. -/
def sumCube (c : List (List ℝ)) : ℝ := sumR (c.map sumR)

/-- Integer-indexed entry lookup with zero padding outside the list. -/
def getR (l : List ℝ) (k : ℤ) : ℝ :=
  if 0 ≤ k ∧ k < l.length then l.getD k.toNat 0 else 0

/-- Integer-indexed row lookup with empty-row padding outside the cube. -/
def getRow (c : List (List ℝ)) (k : ℤ) : List ℝ :=
  if 0 ≤ k ∧ k < c.length then c.getD k.toNat [] else []

/-- Elementwise predicate over a cube. -/
def cubeAll (P : ℝ → Prop) (c : List (List ℝ)) : Prop :=
  ∀ r ∈ c, ∀ x ∈ r, P x

/-- Velocity bin edges of `generate_pvd` (mockpvd.py lines 227-229):
`np.hstack([v - delv * 0.5, v[-1] + 0.5 * delv])` with `delv = v[1] - v[0]`. -/
def vedgeOf (v : List ℝ) : List ℝ :=
  v.map (fun x => x - (v.getD 1 0 - v.getD 0 0) / 2) ++
    [v.getLastD 0 + (v.getD 1 0 - v.getD 0 0) / 2]

/-- Modelled from the spec: `rho2rhocube` lives in
`pvfitting/precalculation.py`, which is not under `src/`.  Per spec section
4.4 step 1, each spatial sample's density is deposited into the single
velocity bin whose edges contain that sample's line-of-sight velocity.
The density and velocity fields are organised as lists of line-of-sight
columns (`rho[i][j]`: spatial pixel `i`, sample `j` along the line of
sight); bin `k` covers `vedge[k] <= vlos < vedge[k+1]`. -/
def rho2rhocube (vlos rho : List (List ℝ)) (vedge : List ℝ) :
    List (List (List ℝ)) :=
  (List.range (vedge.length - 1)).map fun (k : ℕ) =>
    (vlos.zip rho).map fun col =>
      (col.1.zip col.2).map fun s =>
        if getR vedge k ≤ s.1 ∧ s.1 < getR vedge (k + 1) then s.2 else 0

/-- Modelled from the spec: `Nested3DGrid.integrate_along` lives in
`pvfitting/grid.py`, which is not under `src/`.  For the single-level grid
this is the line integral along the z axis: each line-of-sight column of
each velocity channel is summed and scaled by the sample spacing `dz`. -/
def integrateAlongZ (dz : ℝ) (cube : List (List (List ℝ))) :
    List (List ℝ) :=
  cube.map fun channel => channel.map fun col => dz * sumR col

/-- Spectral Gaussian kernel of `generate_pvd` (mockpvd.py lines 256-258):
`exp(-(v - v[nv//2 - 1 + nv%2])**2 / linewidth**2)`, normalised to unit
sum. -/
def gaussV (v : List ℝ) (lw : ℝ) : List ℝ :=
  let v0 := getR v ((v.length : ℤ) / 2 - 1 + (v.length : ℤ) % 2)
  let raw := v.map fun x => Real.exp (-(x - v0) ^ 2 / lw ^ 2)
  raw.map (· / sumR raw)

/-- Beam Gaussian kernel values of `generate_pvd` (mockpvd.py lines
268-272) read off in a flat row-major list: coordinates are rotated by
`radians(bpa - pa)` (the `rot` helper, lines 290-293) and an elliptical
Gaussian with FWHM-scaled widths `bmaj/2.35`, `bmin/2.35` is normalised to
unit sum.  The kernel's two-dimensional shape, which the beam convolution
of line 275 depends on, is kept by `gaussXY2` below. -/
def gaussXY (xs ys : List ℝ) (bmaj bmin bpa pa : ℝ) : List ℝ :=
  let th := (bpa - pa) * Real.pi / 180
  let raw := xs.flatMap fun x => ys.map fun y =>
    Real.exp (-(1 / 2) * ((x * Real.sin th + y * Real.cos th) /
        (bmin / 2.35)) ^ 2 -
      (1 / 2) * ((x * Real.cos th - y * Real.sin th) / (bmaj / 2.35)) ^ 2)
  raw.map (· / sumR raw)

/-- The centred slice of the full zero-padded discrete convolution: models
`scipy.signal.convolve(f, g, mode='same')` along one axis; output entry `j`
is `sum_i g[i] * f[j + (len g - 1)/2 - i]`. -/
def convRow (g f : List ℝ) : List ℝ :=
  (List.range f.length).map fun (j : ℕ) =>
    ∑ i ∈ Finset.range g.length,
      getR g i * getR f ((j : ℤ) + ((g.length - 1) / 2 : ℕ) - i)

/-- Convolution along the velocity axis of a cube with a kernel of shape
`(nv, 1, 1)` (mockpvd.py line 261): each spatial sample's spectrum is
convolved in `same` mode. -/
def convV (g : List ℝ) (c : List (List ℝ)) : List (List ℝ) :=
  (List.range c.length).map fun (j : ℕ) =>
    (List.range (c.headD []).length).map fun (s : ℕ) =>
      ∑ i ∈ Finset.range g.length,
        getR g i * getR (getRow c ((j : ℤ) + ((g.length - 1) / 2 : ℕ) - i)) s

/-- Saturating intensity mapping of `generate_pvd` (mockpvd.py line 263):
`I = 1 - exp(-tau / max(tau) * taumax)`.  Faithful only when the
normalising maximum `m` is nonzero: Lean's total division turns `0/0` into
`0`, while the floating-point computation yields NaN.  The NaN case is
made explicit in `generate_pvd_core2`, which guards the division and never
applies this map with `m = 0`. -/
def intensity (taumax m t : ℝ) : ℝ := 1 - Real.exp (-(t / m) * taumax)

/-- Transpose-and-slice step of `generate_pvd` (mockpvd.py lines 277-279):
with the spatial samples flattened x-major (`i = ix * ny + iy`), taking the
transverse row `ny // 2` keeps the entries at flat index `ix * ny + ny/2`. -/
def sliceY (ny : ℕ) (row : List ℝ) : List ℝ :=
  (List.range (row.length / ny)).map fun (ix : ℕ) =>
    getR row ((ix : ℤ) * ny + (ny / 2 : ℕ))

/-- Sub-grid block averaging of `generate_pvd` (mockpvd.py lines 282-286):
`np.nanmean` of the `nsubgrid` interleaved column slices, i.e. the mean of
each consecutive block of `nsub` offsets. -/
def blockMean (nsub : ℕ) (row : List ℝ) : List ℝ :=
  (List.range (row.length / nsub)).map fun (k : ℕ) =>
    (∑ i ∈ Finset.range nsub, getR row ((k : ℤ) * nsub + i)) / nsub

/-- Module-level state of `pvfitting.precalculation` used by
`generate_pvd`: the cached velocity bin edges and the two cached Gaussian
kernels (spec section 3, KernelCache). -/
structure Precalc where
  vedge : Option (List ℝ)
  gauss_v : Option (List ℝ)
  gauss_xy : Option (List ℝ)

/-- Fresh module state: all three caches unset. -/
def Precalc.empty : Precalc := ⟨none, none, none⟩

/-- Beam arguments of `generate_pvd`: the spatial axes `self.x`, `self.y`
and `beam = [bmaj, bmin, bpa]`. -/
structure BeamArgs where
  xs : List ℝ
  ys : List ℝ
  bmaj : ℝ
  bmin : ℝ
  bpa : ℝ

/-- Pure part of `generate_pvd` after kernel resolution (mockpvd.py lines
253-287) in a total-function approximation: the division of line 263 is
Lean's total division (junk value `0/0 = 0` where the floats give NaN) and
the beam convolution acts on the flattened sample list.  It is retained
for the cache-divergence analysis, whose scenario has no beam kernel and a
strictly positive cube maximum, so neither approximation is exercised
there; `generate_pvd_core2` below refines both points. -/
def generate_pvd_core (taumax : ℝ) (gv gxy : Option (List ℝ)) (ny nsub : ℕ)
    (tauv : List (List ℝ)) : List (List ℝ) :=
  let tau1 := match gv with
    | none => tauv
    | some g => convV g tauv
  let m := maxCube tau1
  let i1 := tau1.map (List.map (intensity taumax m))
  let i2 := match gxy with
    | none => i1
    | some g => i1.map (convRow g)
  (i2.map (sliceY ny)).map (blockMean nsub)

/-- State-passing embedding of `MockPVD.generate_pvd` (mockpvd.py lines
220-287).  The velocity bin edges and the two Gaussian kernels are taken
from the module cache when present and computed and stored when absent
(`if precalculation.vedge is None`, `if precalculation.gauss_v is None`,
`if precalculation.gauss_xy is None`); nothing ever invalidates a stored
entry.  Returns the PV array and the updated cache.  Built on
`generate_pvd_core`; `generate_pvd_opt` below is the refinement with the
two-dimensional beam kernel and the explicit NaN outcome. -/
def generate_pvd_st (st : Precalc) (v : List ℝ) (dz : ℝ)
    (rho vlos : List (List ℝ)) (taumax : ℝ) (beam : Option BeamArgs)
    (linewidth : Option ℝ) (pa : ℝ) (ny nsub : ℕ) :
    List (List ℝ) × Precalc :=
  let vedge := st.vedge.getD (vedgeOf v)
  let rhov := rho2rhocube vlos rho vedge
  let tauv := integrateAlongZ dz rhov
  let gv : Option (List ℝ) := match linewidth with
    | none => none
    | some lw => some (st.gauss_v.getD (gaussV v lw))
  let gxy : Option (List ℝ) := match beam with
    | none => none
    | some b => some (st.gauss_xy.getD (gaussXY b.xs b.ys b.bmaj b.bmin b.bpa pa))
  (generate_pvd_core taumax gv gxy ny nsub tauv,
   { vedge := some vedge
     gauss_v := Option.orElse gv fun _ => st.gauss_v
     gauss_xy := Option.orElse gxy fun _ => st.gauss_xy })

/-- Two-dimensional beam Gaussian kernel of `generate_pvd` (mockpvd.py
lines 267-273) in its array shape: rows are indexed by the `x` axis and
columns by the `y` axis (`np.meshgrid(self.x, self.y, indexing='ij')`),
the coordinates are rotated by `radians(bpa - pa)` (the `rot` helper,
lines 290-293), and the elliptical Gaussian with FWHM-scaled widths
`bmaj/2.35`, `bmin/2.35` is normalised to unit total. -/
def gaussXY2 (xs ys : List ℝ) (bmaj bmin bpa pa : ℝ) : List (List ℝ) :=
  let th := (bpa - pa) * Real.pi / 180
  let raw := xs.map fun x => ys.map fun y =>
    Real.exp (-(1 / 2) * ((x * Real.sin th + y * Real.cos th) /
        (bmin / 2.35)) ^ 2 -
      (1 / 2) * ((x * Real.cos th - y * Real.sin th) / (bmaj / 2.35)) ^ 2)
  raw.map (List.map (· / sumCube raw))

/-- Entry of one velocity channel's spatial plane, stored flattened x-major
with transverse width `ny`, at the two-dimensional coordinates
`(ix, iy)` — with zero padding outside the plane in each coordinate
separately: the transverse index must lie in `[0, ny)` and the flat index
in range. -/
def getXY (ny : ℕ) (f : List ℝ) (ix iy : ℤ) : ℝ :=
  if 0 ≤ iy ∧ iy < (ny : ℤ) then getR f (ix * ny + iy) else 0

/-- `same`-mode convolution over the two spatial axes of one velocity
channel stored as a flattened x-major plane of width `ny`: models
`scipy.signal.convolve(I_cube, g[None, :, :], mode='same')` (mockpvd.py
line 275) on one channel.  The output entry at flat index
`j = ix * ny + iy` is `sum over (a, b) of g[a][b] *
plane[ix + (m1-1)/2 - a, iy + (m2-1)/2 - b]` for a kernel of shape
`(m1, m2)`, zero-padded in each spatial coordinate separately, so samples
are never mixed across row boundaries. -/
def conv2same (g : List (List ℝ)) (ny : ℕ) (f : List ℝ) : List ℝ :=
  (List.range f.length).map fun (j : ℕ) =>
    ∑ a ∈ Finset.range g.length, ∑ b ∈ Finset.range (g.headD []).length,
      getR (getRow g a) b *
        getXY ny f (((j / ny : ℕ) : ℤ) + ((g.length - 1) / 2 : ℕ) - a)
          (((j % ny : ℕ) : ℤ) + (((g.headD []).length - 1) / 2 : ℕ) - b)

/-- Module-level state of `pvfitting.precalculation` with the beam kernel
kept in its two-dimensional array shape. -/
structure Precalc2 where
  vedge : Option (List ℝ)
  gauss_v : Option (List ℝ)
  gauss_xy : Option (List (List ℝ))

/-- Fresh module state: all three caches unset. -/
def Precalc2.empty : Precalc2 := ⟨none, none, none⟩

/-- NaN-aware core of `generate_pvd` (mockpvd.py lines 253-287).  The
optical-depth cube reaching line 263 is elementwise nonnegative, so its
`np.nanmax` is `0` exactly when the cube is identically zero; in that case
`tau_v / np.nanmax(tau_v)` computes `0/0 = NaN` in floating point and
every element of the returned PV array is NaN.  The real numbers have no
NaN and Lean's total division would silently turn it into `0`, so that
error outcome is the explicit value `none` here.  Otherwise the pipeline
proceeds: optional spectral convolution, the saturating intensity mapping
normalised by the cube maximum, optional two-dimensional beam convolution
(`conv2same`), the transverse slice at `ny // 2`, and sub-grid block
averaging. -/
def generate_pvd_core2 (taumax : ℝ) (gv : Option (List ℝ))
    (gxy : Option (List (List ℝ))) (ny nsub : ℕ)
    (tauv : List (List ℝ)) : Option (List (List ℝ)) :=
  let tau1 := match gv with
    | none => tauv
    | some g => convV g tauv
  if maxCube tau1 = 0 then none
  else
    let i1 := tau1.map (List.map (intensity taumax (maxCube tau1)))
    let i2 := match gxy with
      | none => i1
      | some g => i1.map (conv2same g ny)
    some ((i2.map (sliceY ny)).map (blockMean nsub))

/-- State-passing embedding of `MockPVD.generate_pvd` (mockpvd.py lines
220-287), refining `generate_pvd_st` on the two points where that
embedding is approximate: the beam kernel keeps its two-dimensional array
shape and acts through `conv2same`, and the all-zero-cube NaN outcome of
line 263 is the explicit value `none`.  Kernel caching is as in the
source: the bin edges and the two Gaussian kernels are taken from the
module cache when present and computed and stored when absent, and nothing
ever invalidates a stored entry. -/
def generate_pvd_opt (st : Precalc2) (v : List ℝ) (dz : ℝ)
    (rho vlos : List (List ℝ)) (taumax : ℝ) (beam : Option BeamArgs)
    (linewidth : Option ℝ) (pa : ℝ) (ny nsub : ℕ) :
    Option (List (List ℝ)) × Precalc2 :=
  let vedge := st.vedge.getD (vedgeOf v)
  let rhov := rho2rhocube vlos rho vedge
  let tauv := integrateAlongZ dz rhov
  let gv : Option (List ℝ) := match linewidth with
    | none => none
    | some lw => some (st.gauss_v.getD (gaussV v lw))
  let gxy : Option (List (List ℝ)) := match beam with
    | none => none
    | some b => some (st.gauss_xy.getD (gaussXY2 b.xs b.ys b.bmaj b.bmin b.bpa pa))
  (generate_pvd_core2 taumax gv gxy ny nsub tauv,
   { vedge := some vedge
     gauss_v := Option.orElse gv fun _ => st.gauss_v
     gauss_xy := Option.orElse gxy fun _ => st.gauss_xy })

end


section NestedGridModel

/-- Modelled from the spec: one level of the nested grid's line-integration
contract along a single line of sight (`Nested3DGrid.integrate_along`,
`pvfitting/grid.py`, not under `src/`).  A level samples its box with `n`
cells of physical width `w`; `msub` of its cells are covered by the next
finer level's box. -/
structure NestLevel where
  n : ℕ
  w : ℚ
  msub : ℕ

/-- Modelled from the spec (section 4.1): line integral of a constant
field `c` over a nested-level list ordered coarsest first.  Within any
finer level's box that level's own sampling is used, so a coarser level
contributes only its cells outside the finer box; the finest level
contributes all of its cells. -/
def integrateAlongNested (c : ℚ) : List NestLevel → ℚ
  | [] => 0
  | [l] => c * l.n * l.w
  | l :: l2 :: rest =>
      c * ((l.n : ℚ) - l.msub) * l.w + integrateAlongNested c (l2 :: rest)

/-- Well-formed nesting: each finer box is aligned with and contained in
the cells it replaces — the `msub` covered coarse cells span exactly the
finer level's box. -/
def levelsNested : List NestLevel → Prop
  | [] => True
  | [_] => True
  | l :: l2 :: rest =>
      l.msub ≤ l.n ∧ (l.msub : ℚ) * l.w = (l2.n : ℚ) * l2.w ∧
        levelsNested (l2 :: rest)

end NestedGridModel

section SerializationModel

/-- Characters of the fit-result table serialization, as an explicit
alphabet: decimal digits, the decimal point, the minus sign, the comment
character and letters (`alpha i` standing for the i-th letter). -/
inductive Ch where
  | digit : ℕ → Ch
  | dot : Ch
  | minus : Ch
  | hash : Ch
  | alpha : ℕ → Ch
deriving DecidableEq

/-- The axis keyword 'major' of `generate_mockpvd`. -/
def axisMajor : List Ch :=
  [Ch.alpha 12, Ch.alpha 0, Ch.alpha 9, Ch.alpha 14, Ch.alpha 17]

/-- The axis keyword 'minor' of `generate_mockpvd`. -/
def axisMinor : List Ch :=
  [Ch.alpha 12, Ch.alpha 8, Ch.alpha 13, Ch.alpha 14, Ch.alpha 17]

/-- The axis keyword 'both' of `generate_mockpvd`. -/
def axisBoth : List Ch :=
  [Ch.alpha 1, Ch.alpha 14, Ch.alpha 19, Ch.alpha 7]

/-- Return value of `generate_mockpvd` (mockpvd.py lines 67-123): either
the integer sentinel `0` from the axis check or a computed result. -/
inductive GenOut where
  | sentinel : ℤ → GenOut
  | pvd : List (List (List ℝ)) → GenOut

/-- Axis check of `generate_mockpvd` (mockpvd.py lines 86-89): for an axis
keyword not in `['major', 'minor', 'both']` it prints a message and
returns the plain integer 0; otherwise it computes the result (abstracted
here as the `result` argument). -/
def generate_mockpvd_check (axis : List Ch) (result : GenOut) : GenOut :=
  if axis = axisMajor ∨ axis = axisMinor ∨ axis = axisBoth then result
  else GenOut.sentinel 0

/-- Little-endian decimal digits of `n` (empty for 0), with fuel. -/
def natDigitsAux : ℕ → ℕ → List ℕ
  | 0, _ => []
  | fuel + 1, n => if n = 0 then [] else n % 10 :: natDigitsAux fuel (n / 10)

/-- Big-endian decimal digits of a positive integer part (`[0]` for 0). -/
def intDigits (n : ℕ) : List ℕ :=
  if n = 0 then [0] else (natDigitsAux n n).reverse

/-- Exactly `k` big-endian decimal digits of `n mod 10^k` (leading zeros
kept), as the fixed fractional part. -/
def fixedDigits : ℕ → ℕ → List ℕ
  | 0, _ => []
  | k + 1, n => n / 10 ^ k % 10 :: fixedDigits k n

/-- Value of a big-endian digit list. -/
def valBE : List ℕ → ℕ
  | [] => 0
  | d :: ds => d * 10 ^ ds.length + valBE ds

/-- Value of a little-endian digit list. -/
def valLE : List ℕ → ℕ
  | [] => 0
  | d :: ds => d + 10 * valLE ds

/-- Decimal fixed-point serialization of a table value: the scaled integer
`m` denotes `m / 10^6`, printed as optional sign, integer digits, a
decimal point and exactly six fractional digits — the decimal-precision
model of numpy's `%s` float formatting in `writeout_fitres`
(_pvsilhouette.py lines 551-555). -/
def printFixed (m : ℤ) : List Ch :=
  (if m < 0 then [Ch.minus] else []) ++
    (intDigits (m.natAbs / 10 ^ 6)).map Ch.digit ++ [Ch.dot] ++
    (fixedDigits 6 m.natAbs).map Ch.digit

/-- Digit value of a character, if it is a digit. -/
def chDigit : Ch → Option ℕ
  | Ch.digit d => some d
  | _ => none

/-- Parse a run of digit characters. -/
def parseDigits : List Ch → Option (List ℕ)
  | [] => some []
  | c :: cs =>
    match chDigit c, parseDigits cs with
    | some d, some ds => some (d :: ds)
    | _, _ => none

/-- Split a token at its first decimal point. -/
def splitAtDot : List Ch → List Ch × Option (List Ch)
  | [] => ([], none)
  | Ch.dot :: rest => ([], some rest)
  | c :: rest => ((splitAtDot rest).1.cons c, (splitAtDot rest).2)

/-- Parse an unsigned decimal token into its rational value — the model of
`np.genfromtxt`'s float parsing (numpy is external to the repository). -/
def parseNumAbs (cs : List Ch) : Option ℚ :=
  match splitAtDot cs with
  | (ip, none) =>
    if ip = [] then none
    else (parseDigits ip).map fun ds => (valBE ds : ℚ)
  | (ip, some fp) =>
    if ip = [] then none
    else
      match parseDigits ip, parseDigits fp with
      | some ds, some fs =>
        some ((valBE ds : ℚ) + (valBE fs : ℚ) / 10 ^ fs.length)
      | _, _ => none

/-- Parse a signed decimal token. -/
def parseNum : List Ch → Option ℚ
  | Ch.minus :: rest => (parseNumAbs rest).map fun q => -q
  | cs => parseNumAbs cs

/-- A parameter label token (letters only). -/
def labelTok (i : ℕ) : List Ch := [Ch.alpha i]

/-- The header line `# popt plow pmid phigh` of `writeout_fitres`
(_pvsilhouette.py line 549): its first token starts with the comment
character. -/
def headerLine : List (List Ch) :=
  [[Ch.hash], labelTok 100, labelTok 101, labelTok 102, labelTok 103]

/-- File written by `writeout_fitres` (_pvsilhouette.py lines 546-555): the
header line, then one row per parameter `<label> <best> <low> <mid>
<high>`, whitespace-separated (a file is a list of lines, a line a list of
tokens).  Values are the scaled integers of `printFixed`. -/
def writeout_fitres (popt plow pmid phigh : List ℤ) : List (List (List Ch)) :=
  headerLine ::
    (List.range 7).map fun i =>
      [labelTok i, printFixed (popt.getD i 0), printFixed (plow.getD i 0),
       printFixed (pmid.getD i 0), printFixed (phigh.getD i 0)]

/-- Comment stripping of `np.genfromtxt(comments='#')`: tokens from the
first one containing `#` onwards are discarded. -/
def stripComment (line : List (List Ch)) : List (List Ch) :=
  line.takeWhile fun tok => decide (Ch.hash ∉ tok)

/-- Traverse a list with a fallible function. -/
def optTraverse {α β : Type} (f : α → Option β) : List α → Option (List β)
  | [] => some []
  | x :: xs =>
    match f x, optTraverse f xs with
    | some y, some ys => some (y :: ys)
    | _, _ => none

/-- Parse one data row by column index: columns 1..4 (`usecols=(1,2,3,4)`),
ignoring the label column 0. -/
def parseRow (row : List (List Ch)) : Option (ℚ × ℚ × ℚ × ℚ) :=
  match row.get? 1, row.get? 2, row.get? 3, row.get? 4 with
  | some c1, some c2, some c3, some c4 =>
    match parseNum c1, parseNum c2, parseNum c3, parseNum c4 with
    | some q1, some q2, some q3, some q4 => some (q1, q2, q3, q4)
    | _, _, _, _ => none
  | _, _, _, _ => none

/-- `read_fitres` (_pvsilhouette.py lines 562-572): drop comment content
and empty lines, then parse columns 1..4 of every remaining row. -/
def read_fitres (file : List (List (List Ch))) :
    Option (List (ℚ × ℚ × ℚ × ℚ)) :=
  optTraverse parseRow (((file.map stripComment).filter
    fun l => decide (l ≠ [])))

end SerializationModel

section UlrichLemmas

/-- The clipped radius is at least the clip floor. -/
theorem rcl_pos (radius : ℝ) : 0 < rcl radius :=
  lt_of_lt_of_le (by norm_num) (le_max_right _ _)

/-- The clipped cosine magnitude is at least the clip floor. -/
theorem mucl_pos (theta : ℝ) : 0 < mucl theta := by
  have h1 : (1e-10 : ℝ) ≤ max |Real.cos theta| 1e-10 := le_max_right _ _
  have : (0 : ℝ) < min (max |Real.cos theta| 1e-10) 1 := by
    apply lt_min
    · linarith
    · norm_num
  simpa [mucl] using this

/-- The cubic's constant-side coefficient `q` is strictly positive. -/
theorem qco_pos (radius theta : ℝ) : 0 < qco radius theta := by
  have h1 := mucl_pos theta
  have h2 := rcl_pos radius
  have := mul_pos h1 h2
  simp only [qco]
  positivity

end UlrichLemmas

section CubicLemmas

/-- Cube of a real one-third power of a nonnegative base. -/
theorem rpow_third_cube {A : ℝ} (hA : 0 ≤ A) : (A ^ ((1 : ℝ) / 3)) ^ 3 = A := by
  rw [← Real.rpow_natCast (A ^ ((1 : ℝ) / 3)) 3, ← Real.rpow_mul hA]
  norm_num

/-- In the regime `p >= 0`, `q > 0` of branch A, the code's expression
collapses to a difference of two cube roots:
`mu0A p q = (D^(1/2) + q)^(1/3) - (D^(1/2) - q)^(1/3)`. -/
theorem mu0A_eq {p q : ℝ} (hp : 0 ≤ p) (hq : 0 < q) :
    mu0A p q =
      ((q ^ 2 + p ^ 3) ^ ((1 : ℝ) / 2) + q) ^ ((1 : ℝ) / 3) -
      ((q ^ 2 + p ^ 3) ^ ((1 : ℝ) / 2) - q) ^ ((1 : ℝ) / 3) := by
  set D : ℝ := q ^ 2 + p ^ 3 with hDdef
  have hD : 0 < D := by positivity
  set s : ℝ := D ^ ((1 : ℝ) / 2) with hsdef
  have hs : 0 < s := Real.rpow_pos_of_pos hD _
  have hs2 : s ^ 2 = D := by
    rw [hsdef, ← Real.rpow_natCast (D ^ ((1 : ℝ) / 2)) 2, ← Real.rpow_mul hD.le]
    norm_num
  have hqs : q ≤ s := by
    have h2 : q ^ 2 ≤ s ^ 2 := by nlinarith [pow_nonneg hp 3]
    nlinarith
  have hinv : D ^ (-(1 : ℝ) / 2) = s⁻¹ := by
    rw [show (-(1 : ℝ) / 2) = -(1 / 2) by norm_num, Real.rpow_neg hD.le]
  have h16 : D ^ ((1 : ℝ) / 6) = s ^ ((1 : ℝ) / 3) := by
    rw [hsdef, ← Real.rpow_mul hD.le]
    norm_num
  have hplus : s * (1 + q * D ^ (-(1 : ℝ) / 2)) = s + q := by
    rw [hinv]; field_simp
  have hminus : s * (1 - q * D ^ (-(1 : ℝ) / 2)) = s - q := by
    rw [hinv]; field_simp
  have h1p : 0 ≤ 1 + q * D ^ (-(1 : ℝ) / 2) := by
    have : 0 ≤ q * D ^ (-(1 : ℝ) / 2) := by
      apply mul_nonneg hq.le (Real.rpow_nonneg hD.le _)
    linarith
  have h1m : 0 ≤ 1 - q * D ^ (-(1 : ℝ) / 2) := by
    rw [hinv]
    have : q * s⁻¹ ≤ 1 := by
      rw [mul_inv_le_iff₀ hs]; simpa using hqs
    linarith
  have key : ∀ z : ℝ, 0 ≤ z →
      s ^ ((1 : ℝ) / 3) * z ^ ((1 : ℝ) / 3) = (s * z) ^ ((1 : ℝ) / 3) :=
    fun z hz => (Real.mul_rpow hs.le hz).symm
  unfold mu0A
  rw [← hDdef, h16, mul_sub, key _ h1p, key _ h1m, hplus, hminus]

/-- Branch A satisfies the streamline cubic
`mu0^3 + 3 p mu0 - 2 q = 0` when `p >= 0 < q`. -/
theorem mu0A_cubic {p q : ℝ} (hp : 0 ≤ p) (hq : 0 < q) :
    mu0A p q ^ 3 + 3 * p * mu0A p q - 2 * q = 0 := by
  rw [mu0A_eq hp hq]
  set D : ℝ := q ^ 2 + p ^ 3 with hDdef
  have hD : 0 < D := by positivity
  set s : ℝ := D ^ ((1 : ℝ) / 2) with hsdef
  have hs : 0 < s := Real.rpow_pos_of_pos hD _
  have hs2 : s ^ 2 = D := by
    rw [hsdef, ← Real.rpow_natCast (D ^ ((1 : ℝ) / 2)) 2, ← Real.rpow_mul hD.le]
    norm_num
  have hqs : q ≤ s := by
    have h2 : q ^ 2 ≤ s ^ 2 := by nlinarith [pow_nonneg hp 3]
    nlinarith
  set u : ℝ := (s + q) ^ ((1 : ℝ) / 3) with hudef
  set w : ℝ := (s - q) ^ ((1 : ℝ) / 3) with hwdef
  have hu : u ^ 3 = s + q := rpow_third_cube (by linarith)
  have hw : w ^ 3 = s - q := rpow_third_cube (by linarith)
  have huw : u * w = p := by
    rw [hudef, hwdef, ← Real.mul_rpow (by linarith) (by linarith)]
    have hsub : (s + q) * (s - q) = p ^ 3 := by nlinarith
    rw [hsub, ← Real.rpow_natCast p 3, ← Real.rpow_mul hp]
    norm_num
  linear_combination hu - hw - 3 * (u - w) * huw

/-- Branch A produces a positive root when `p >= 0 < q`. -/
theorem mu0A_pos {p q : ℝ} (hp : 0 ≤ p) (hq : 0 < q) : 0 < mu0A p q := by
  rw [mu0A_eq hp hq]
  set D : ℝ := q ^ 2 + p ^ 3 with hDdef
  have hD : 0 < D := by positivity
  set s : ℝ := D ^ ((1 : ℝ) / 2) with hsdef
  have hs : 0 < s := Real.rpow_pos_of_pos hD _
  have hs2 : s ^ 2 = D := by
    rw [hsdef, ← Real.rpow_natCast (D ^ ((1 : ℝ) / 2)) 2, ← Real.rpow_mul hD.le]
    norm_num
  have hqs : q ≤ s := by
    have h2 : q ^ 2 ≤ s ^ 2 := by nlinarith [pow_nonneg hp 3]
    nlinarith
  have hlt : (s - q) ^ ((1 : ℝ) / 3) < (s + q) ^ ((1 : ℝ) / 3) :=
    Real.rpow_lt_rpow (by linarith) (by linarith) (by norm_num)
  linarith

/-- Branch B satisfies the streamline cubic when `p <= 0 < q` and the
discriminant `q^2 - (-p)^3` is nonnegative. -/
theorem mu0B_cubic {p q : ℝ} (hp : p ≤ 0) (hq : 0 < q)
    (hD : 0 ≤ q ^ 2 - max (-p) 0 ^ 3) :
    mu0B p q ^ 3 + 3 * p * mu0B p q - 2 * q = 0 := by
  have hpm : max (-p) 0 = -p := max_eq_left (by linarith)
  unfold mu0B
  rw [hpm] at hD ⊢
  set s : ℝ := Real.sqrt (q ^ 2 - (-p) ^ 3) with hsdef
  have hs0 : 0 ≤ s := Real.sqrt_nonneg _
  have hs2 : s ^ 2 = q ^ 2 - (-p) ^ 3 := Real.sq_sqrt hD
  have hsq : s ≤ q := by
    have h1 : s ≤ Real.sqrt (q ^ 2) :=
      Real.sqrt_le_sqrt (by nlinarith [pow_nonneg (neg_nonneg.mpr hp) 3])
    rwa [Real.sqrt_sq hq.le] at h1
  set u : ℝ := (q + s) ^ ((1 : ℝ) / 3) with hudef
  set w : ℝ := (q - s) ^ ((1 : ℝ) / 3) with hwdef
  have hu : u ^ 3 = q + s := rpow_third_cube (by linarith)
  have hw : w ^ 3 = q - s := rpow_third_cube (by linarith)
  have huw : u * w = -p := by
    rw [hudef, hwdef, ← Real.mul_rpow (by linarith) (by linarith)]
    have hsub : (q + s) * (q - s) = (-p) ^ 3 := by nlinarith
    rw [hsub, ← Real.rpow_natCast (-p) 3, ← Real.rpow_mul (by linarith)]
    norm_num
  linear_combination hu + hw + 3 * (u + w) * huw

/-- Branch B produces a positive root under the same conditions. -/
theorem mu0B_pos {p q : ℝ} (hp : p ≤ 0) (hq : 0 < q)
    (hD : 0 ≤ q ^ 2 - max (-p) 0 ^ 3) : 0 < mu0B p q := by
  have hpm : max (-p) 0 = -p := max_eq_left (by linarith)
  unfold mu0B
  rw [hpm] at hD ⊢
  set s : ℝ := Real.sqrt (q ^ 2 - (-p) ^ 3) with hsdef
  have hs0 : 0 ≤ s := Real.sqrt_nonneg _
  have hs2 : s ^ 2 = q ^ 2 - (-p) ^ 3 := Real.sq_sqrt hD
  have hsq : s ≤ q := by
    have h1 : s ≤ Real.sqrt (q ^ 2) :=
      Real.sqrt_le_sqrt (by nlinarith [pow_nonneg (neg_nonneg.mpr hp) 3])
    rwa [Real.sqrt_sq hq.le] at h1
  have hu : 0 < (q + s) ^ ((1 : ℝ) / 3) :=
    Real.rpow_pos_of_pos (by linarith) _
  have hw : 0 ≤ (q - s) ^ ((1 : ℝ) / 3) :=
    Real.rpow_nonneg (by linarith) _
  linarith

/-- Branch C satisfies the streamline cubic when the discriminant
`q^2 - (-p)^3` (with `(-p)` clipped at 0) is negative and `q > 0`. -/
theorem mu0C_cubic {p q : ℝ} (hq : 0 < q)
    (hD : q ^ 2 - max (-p) 0 ^ 3 < 0) :
    mu0C p q ^ 3 + 3 * p * mu0C p q - 2 * q = 0 := by
  set pm : ℝ := max (-p) 0 with hpmdef
  have hpm0 : 0 ≤ pm := le_max_right _ _
  have hpm : 0 < pm := by
    rcases lt_or_eq_of_le hpm0 with h | h
    · exact h
    · exfalso; rw [← h] at hD; nlinarith
  have hp_eq : p = -pm := by
    have : -p ≤ pm := le_max_left _ _
    rcases max_cases (-p) 0 with ⟨h1, h2⟩ | ⟨h1, h2⟩
    · rw [hpmdef, h1]; ring
    · exfalso; rw [hpmdef, h1] at hD hpm; nlinarith
  set s : ℝ := Real.sqrt pm with hsdef
  have hs : 0 < s := Real.sqrt_pos.mpr hpm
  have hsp : s ^ 2 = pm := Real.sq_sqrt hpm0
  have h32 : pm ^ ((3 : ℝ) / 2) = pm * s := by
    rw [show ((3 : ℝ) / 2) = 1 + 1 / 2 by norm_num, Real.rpow_add hpm, Real.rpow_one,
      hsdef, Real.sqrt_eq_rpow]
  have hinv : pm ^ (-(3 : ℝ) / 2) = (pm * s)⁻¹ := by
    rw [show (-(3 : ℝ) / 2) = -(3 / 2) by norm_num, Real.rpow_neg hpm0, h32]
  set x : ℝ := q * pm ^ (-(3 : ℝ) / 2) with hxdef
  have hx0 : 0 < x := by
    rw [hxdef, hinv]
    positivity
  have hxval : pm * s * x = q := by
    rw [hxdef, hinv]
    field_simp
  have hx1 : x ≤ 1 := by
    rw [hxdef, hinv]
    rw [mul_inv_le_iff₀ (by positivity)]
    have hq2 : q ^ 2 < (pm * s) ^ 2 := by nlinarith
    nlinarith [mul_pos hpm hs, sq_nonneg (q - pm * s), sq_nonneg (q + pm * s)]
  set c : ℝ := Real.cos (Real.arccos x / 3) with hcdef
  have h3c : 4 * c ^ 3 - 3 * c = x := by
    have h3 : 3 * (Real.arccos x / 3) = Real.arccos x := by ring
    have := Real.cos_three_mul (Real.arccos x / 3)
    rw [h3, Real.cos_arccos (by linarith) hx1] at this
    rw [hcdef]
    linarith
  have hgoal : mu0C p q = 2 * s * c := by
    rw [mu0C, ← hpmdef, ← hsdef, ← hxdef, ← hcdef]
  rw [hgoal, hp_eq]
  linear_combination (2 * s ^ 3) * h3c + (6 * s * c + 2 * x * s) * hsp + 2 * hxval

/-- Branch C produces a positive root under the same conditions. -/
theorem mu0C_pos {p q : ℝ} (hq : 0 < q)
    (hD : q ^ 2 - max (-p) 0 ^ 3 < 0) : 0 < mu0C p q := by
  set pm : ℝ := max (-p) 0 with hpmdef
  have hpm0 : 0 ≤ pm := le_max_right _ _
  have hpm : 0 < pm := by
    rcases lt_or_eq_of_le hpm0 with h | h
    · exact h
    · exfalso; rw [← h] at hD; nlinarith
  have hpi := Real.pi_pos
  have harc0 := Real.arccos_nonneg (q * pm ^ (-(3 : ℝ) / 2))
  have harcpi := Real.arccos_le_pi (q * pm ^ (-(3 : ℝ) / 2))
  have hcpos : 0 < Real.cos (Real.arccos (q * pm ^ (-(3 : ℝ) / 2)) / 3) := by
    apply Real.cos_pos_of_mem_Ioo
    constructor
    · linarith
    · linarith
  have hs : 0 < Real.sqrt pm := Real.sqrt_pos.mpr hpm
  rw [mu0C, ← hpmdef]
  positivity

/-- The three masks of `velrho` pick every sample exactly once, and the
selected branch's root always satisfies the streamline cubic
`mu0^3 + (r - 1) mu0 - mu r = 0` written as `mu0^3 + 3 p mu0 - 2 q = 0`. -/
theorem velrhoMu0_cubic (radius theta : ℝ) :
    velrhoMu0 radius theta ^ 3 + 3 * pco radius * velrhoMu0 radius theta -
      2 * qco radius theta = 0 := by
  have hq := qco_pos radius theta
  unfold velrhoMu0
  split_ifs with h1 h2
  · exact mu0A_cubic (by simp only [pco]; linarith) hq
  · exact mu0B_cubic (by simp only [pco]; push_neg at h1; linarith) hq h2
  · exact mu0C_cubic hq (by push_neg at h2; linarith)

/-- The root computed by `velrho` is strictly positive at every sample. -/
theorem velrhoMu0_pos (radius theta : ℝ) : 0 < velrhoMu0 radius theta := by
  have hq := qco_pos radius theta
  unfold velrhoMu0
  split_ifs with h1 h2
  · exact mu0A_pos (by simp only [pco]; linarith) hq
  · exact mu0B_pos (by simp only [pco]; push_neg at h1; linarith) hq h2
  · exact mu0C_pos hq (by push_neg at h2; linarith)

end CubicLemmas

section ClaimUlrich

/-- C8: for every polar angle `t` and azimuth `p`, the triad returned by
`rotbase` is orthonormal: each vector has unit Euclidean norm (squared norm
1) and the three pairwise inner products vanish. -/
theorem rotbase_orthonormal (t p : ℝ) :
    dot3 (rotbase t p).1 (rotbase t p).1 = 1 ∧
    dot3 (rotbase t p).2.1 (rotbase t p).2.1 = 1 ∧
    dot3 (rotbase t p).2.2 (rotbase t p).2.2 = 1 ∧
    dot3 (rotbase t p).1 (rotbase t p).2.1 = 0 ∧
    dot3 (rotbase t p).1 (rotbase t p).2.2 = 0 ∧
    dot3 (rotbase t p).2.1 (rotbase t p).2.2 = 0 := by
  have ht := Real.sin_sq_add_cos_sq t
  have hp := Real.sin_sq_add_cos_sq p
  simp only [rotbase, dot3]
  refine ⟨?_, ?_, ?_, ?_, ?_, ?_⟩
  · linear_combination (Real.sin t) ^ 2 * hp + ht
  · linear_combination (Real.cos t) ^ 2 * hp + ht
  · linear_combination hp
  · linear_combination Real.sin t * Real.cos t * hp
  · ring
  · ring

/-- C9 counterexample: at `radius = 1e-20`, `theta = pi/2` — a valid input
in the claim's sense (`radius > 0`, `sin theta > 0`) — `kepvel` returns
`v_phi = 1 / sqrt(1e-10 * sin theta)` because of the radius clip at 1e-10,
not the claimed `1 / sqrt(radius * sin theta)`. -/
theorem kepvel_clip_counterexample :
    (kepvel 1e-20 (Real.pi / 2)).2.2 ≠
      1 / Real.sqrt (1e-20 * Real.sin (Real.pi / 2)) := by
  have h1 : Real.sqrt 1e-10 = 1e-5 := by
    rw [show (1e-10 : ℝ) = (1e-5) ^ 2 by norm_num, Real.sqrt_sq (by norm_num)]
  have h2 : Real.sqrt 1e-20 = 1e-10 := by
    rw [show (1e-20 : ℝ) = (1e-10) ^ 2 by norm_num, Real.sqrt_sq (by norm_num)]
  simp only [kepvel, rcl, Real.sin_pi_div_two, mul_one]
  rw [max_eq_right (by norm_num : (1e-20 : ℝ) ≤ 1e-10), h1, h2]
  norm_num

/-- C9 (amended): for every input with `radius` at or above the clip floor
1e-10 and `sin theta > 0`, `kepvel` returns exactly `v_r = 0`, `v_theta = 0`
and `v_phi = 1 / sqrt(radius * sin theta)`. -/
theorem kepvel_exact (radius theta : ℝ) (hr : 1e-10 ≤ radius)
    (hs : 0 < Real.sin theta) :
    kepvel radius theta = (0, 0, 1 / Real.sqrt (radius * Real.sin theta)) := by
  unfold kepvel rcl
  rw [max_eq_left hr]

/-- C9 witness at `radius = 1`, `theta = pi/2`. -/
theorem kepvel_exact_witness :
    (1e-10 : ℝ) ≤ 1 ∧ 0 < Real.sin (Real.pi / 2) ∧
      kepvel 1 (Real.pi / 2) =
        (0, 0, 1 / Real.sqrt (1 * Real.sin (Real.pi / 2))) :=
  ⟨by norm_num, by rw [Real.sin_pi_div_two]; norm_num,
   kepvel_exact 1 (Real.pi / 2) (by norm_num)
     (by rw [Real.sin_pi_div_two]; norm_num)⟩

end ClaimUlrich

section ClaimCubic

/-- C1 (amended): for every radius in {0.1, 0.5, 1, 2, 100} and polar angle
in {pi/8, pi/4, pi/2, 3pi/4, 7pi/8}, the root `mu0` computed by `velrho`
(by whichever of its three branches applies) satisfies the streamline cubic
`mu0^3 + 3 p mu0 - 2 q = 0` exactly, where `p = (r - 1)/3` and
`q = mu r / 2` are the code's coefficients built from the clipped radius
`r` and the clipped cosine magnitude `mu = |cos theta|` (clipped to
[1e-10, 1]).  Equivalently `mu0^3 + (r - 1) mu0 - mu r = 0`. -/
theorem velrho_cubic_consistency (radius theta : ℝ)
    (hr : radius = 0.1 ∨ radius = 0.5 ∨ radius = 1 ∨ radius = 2 ∨
          radius = 100)
    (ht : theta = Real.pi / 8 ∨ theta = Real.pi / 4 ∨ theta = Real.pi / 2 ∨
          theta = 3 * Real.pi / 4 ∨ theta = 7 * Real.pi / 8) :
    velrhoMu0 radius theta ^ 3 + 3 * pco radius * velrhoMu0 radius theta -
      2 * qco radius theta = 0 :=
  velrhoMu0_cubic radius theta

/-- C1 witness at `radius = 2`, `theta = pi/4`. -/
theorem velrho_cubic_consistency_witness :
    velrhoMu0 2 (Real.pi / 4) ^ 3 + 3 * pco 2 * velrhoMu0 2 (Real.pi / 4) -
      2 * qco 2 (Real.pi / 4) = 0 :=
  velrho_cubic_consistency 2 (Real.pi / 4)
    (Or.inr (Or.inr (Or.inr (Or.inl rfl)))) (Or.inr (Or.inl rfl))

/-- C1 counterexample: at `radius = 2`, `theta = 3 pi / 4` the root does
not satisfy the claim's cubic `mu0^3 + p mu0 - q = 0` with
`p = (radius - 1)/3` and `q = cos(theta) radius / 2`: the residual exceeds
1e-9 both absolutely and relative to `|q|` (the code solves
`mu0^3 + 3 p mu0 - 2 q = 0` and uses `|cos theta|`, not `cos theta`). -/
theorem velrho_cubic_claim_counterexample :
    1e-9 < |velrhoMu0 2 (3 * Real.pi / 4) ^ 3 +
        (2 - 1) / 3 * velrhoMu0 2 (3 * Real.pi / 4) -
        Real.cos (3 * Real.pi / 4) * 2 / 2| ∧
    1e-9 * |Real.cos (3 * Real.pi / 4) * 2 / 2| <
      |velrhoMu0 2 (3 * Real.pi / 4) ^ 3 +
        (2 - 1) / 3 * velrhoMu0 2 (3 * Real.pi / 4) -
        Real.cos (3 * Real.pi / 4) * 2 / 2| := by
  have hsqrt2 : (0 : ℝ) ≤ 2 := by norm_num
  have hs2 : Real.sqrt 2 ^ 2 = 2 := Real.sq_sqrt hsqrt2
  have hs2nn : 0 ≤ Real.sqrt 2 := Real.sqrt_nonneg 2
  have hs2one : 1 ≤ Real.sqrt 2 := Real.one_le_sqrt.mpr (by norm_num)
  have hs2two : Real.sqrt 2 ≤ 2 := by nlinarith
  have hcos : Real.cos (3 * Real.pi / 4) = -(Real.sqrt 2 / 2) := by
    rw [show 3 * Real.pi / 4 = Real.pi - Real.pi / 4 by ring, Real.cos_pi_sub,
      Real.cos_pi_div_four]
  have hrcl : rcl 2 = 2 := max_eq_left (by norm_num)
  have hmucl : mucl (3 * Real.pi / 4) = Real.sqrt 2 / 2 := by
    rw [mucl, hcos, abs_neg, abs_of_nonneg (by positivity),
      max_eq_left (by nlinarith), min_eq_left (by nlinarith)]
  have hq : qco 2 (3 * Real.pi / 4) = Real.sqrt 2 / 2 := by
    rw [qco, hmucl, hrcl]; ring
  have hp : pco 2 = 1 / 3 := by rw [pco, hrcl]; norm_num
  set m : ℝ := velrhoMu0 2 (3 * Real.pi / 4) with hmdef
  have hcubic := velrhoMu0_cubic 2 (3 * Real.pi / 4)
  rw [hq, hp, ← hmdef] at hcubic
  -- upper bound on the root via branch A
  have hbranch : m = mu0A (pco 2) (qco 2 (3 * Real.pi / 4)) := by
    rw [hmdef, velrhoMu0, if_pos (by rw [hrcl]; norm_num)]
  have hple : (0 : ℝ) ≤ pco 2 := by rw [hp]; norm_num
  have hqpos : 0 < qco 2 (3 * Real.pi / 4) := qco_pos _ _
  have hmu : m ≤ 2 := by
    rw [hbranch, mu0A_eq hple hqpos, hq, hp]
    set D : ℝ := (Real.sqrt 2 / 2) ^ 2 + (1 / 3 : ℝ) ^ 3 with hDdef
    have hD : 0 < D := by positivity
    have hD1 : D ≤ 1 := by rw [hDdef]; nlinarith
    have hDr : D ^ ((1 : ℝ) / 2) ≤ 1 := Real.rpow_le_one hD.le hD1 (by norm_num)
    have hDrnn : 0 ≤ D ^ ((1 : ℝ) / 2) := Real.rpow_nonneg hD.le _
    have hu : (D ^ ((1 : ℝ) / 2) + Real.sqrt 2 / 2) ^ ((1 : ℝ) / 3) ≤ 2 := by
      have h8 : ((8 : ℝ)) ^ ((1 : ℝ) / 3) = 2 := by
        rw [show (8 : ℝ) = 2 ^ (3 : ℕ) by norm_num,
          ← Real.rpow_natCast (2 : ℝ) 3, ← Real.rpow_mul (by norm_num)]
        norm_num
      have := Real.rpow_le_rpow (by positivity)
        (show D ^ ((1 : ℝ) / 2) + Real.sqrt 2 / 2 ≤ 8 by nlinarith)
        (by norm_num : (0 : ℝ) ≤ 1 / 3)
      rw [h8] at this
      exact this
    have hsD : Real.sqrt 2 / 2 ≤ D ^ ((1 : ℝ) / 2) := by
      have hsq : (D ^ ((1 : ℝ) / 2)) ^ 2 = D := by
        rw [← Real.rpow_natCast (D ^ ((1 : ℝ) / 2)) 2, ← Real.rpow_mul hD.le]
        norm_num
      nlinarith
    have hw : 0 ≤ (D ^ ((1 : ℝ) / 2) - Real.sqrt 2 / 2) ^ ((1 : ℝ) / 3) :=
      Real.rpow_nonneg (by linarith) _
    linarith
  have hE : velrhoMu0 2 (3 * Real.pi / 4) ^ 3 +
      (2 - 1) / 3 * velrhoMu0 2 (3 * Real.pi / 4) -
      Real.cos (3 * Real.pi / 4) * 2 / 2 =
      3 / 2 * Real.sqrt 2 - 2 / 3 * m := by
    rw [hcos, ← hmdef]
    linear_combination hcubic
  constructor
  · rw [hE]
    have hpos : (1e-9 : ℝ) < 3 / 2 * Real.sqrt 2 - 2 / 3 * m := by nlinarith
    calc (1e-9 : ℝ) < 3 / 2 * Real.sqrt 2 - 2 / 3 * m := hpos
    _ ≤ |3 / 2 * Real.sqrt 2 - 2 / 3 * m| := le_abs_self _
  · rw [hE, hcos]
    have habs : |(-(Real.sqrt 2 / 2)) * 2 / 2| = Real.sqrt 2 / 2 := by
      rw [show (-(Real.sqrt 2 / 2)) * 2 / 2 = -(Real.sqrt 2 / 2) by ring,
        abs_neg, abs_of_nonneg (by positivity)]
    rw [habs]
    have hpos : 1e-9 * (Real.sqrt 2 / 2) < 3 / 2 * Real.sqrt 2 - 2 / 3 * m := by
      nlinarith
    calc 1e-9 * (Real.sqrt 2 / 2) < 3 / 2 * Real.sqrt 2 - 2 / 3 * m := hpos
    _ ≤ |3 / 2 * Real.sqrt 2 - 2 / 3 * m| := le_abs_self _

end ClaimCubic

section ClaimBranches

/-- C10: for every input with positive radius and polar angle in (0, pi),
the three branch masks of `velrho` select the sample exactly once; the
coefficient `q` is positive; in branch A the discriminant `q^2 + p^3` is
positive and both bases `1 +- q (q^2+p^3)^(-1/2)` of the fractional powers
are nonnegative; in branch B the base `q - sqrt(q^2 - (-p)^3)` is
nonnegative; in branch C the arccos argument `q (-p)^(-3/2)` has magnitude
below 1; and the selected branch overwrites the NaN initialisation with a
(finite) strictly positive real root. -/
theorem velrho_branch_safety (radius theta : ℝ) (hrad : 0 < radius)
    (ht0 : 0 < theta) (htpi : theta < Real.pi) :
    ((condA radius ∧ ¬condB radius theta ∧ ¬condC radius theta) ∨
     (¬condA radius ∧ condB radius theta ∧ ¬condC radius theta) ∨
     (¬condA radius ∧ ¬condB radius theta ∧ condC radius theta)) ∧
    0 < qco radius theta ∧
    (condA radius →
      0 < qco radius theta ^ 2 + pco radius ^ 3 ∧
      0 ≤ 1 + qco radius theta *
        (qco radius theta ^ 2 + pco radius ^ 3) ^ (-(1 : ℝ) / 2) ∧
      0 ≤ 1 - qco radius theta *
        (qco radius theta ^ 2 + pco radius ^ 3) ^ (-(1 : ℝ) / 2)) ∧
    (condB radius theta →
      0 ≤ qco radius theta -
        Real.sqrt (qco radius theta ^ 2 - max (-pco radius) 0 ^ 3)) ∧
    (condC radius theta →
      |qco radius theta * max (-pco radius) 0 ^ (-(3 : ℝ) / 2)| < 1) ∧
    0 < velrhoMu0 radius theta := by
  have hq := qco_pos radius theta
  set p : ℝ := pco radius with hpdef
  set q : ℝ := qco radius theta with hqdef
  refine ⟨?_, hq, ?_, ?_, ?_, velrhoMu0_pos radius theta⟩
  · -- exactly one mask holds
    by_cases hA : condA radius
    · left
      have hp0 : 0 ≤ p := by
        rw [hpdef, pco]
        have : (1 : ℝ) ≤ rcl radius := hA
        linarith
      have hpm : max (-p) 0 = 0 := max_eq_right (by linarith)
      refine ⟨hA, ?_, ?_⟩
      · rintro ⟨hlt, -⟩
        exact absurd hA (not_le.mpr hlt)
      · intro hC
        rw [condC, ← hqdef, ← hpdef, hpm] at hC
        nlinarith
    · by_cases hB : 0 ≤ q ^ 2 - max (-p) 0 ^ 3
      · right; left
        have hlt : rcl radius < 1 := lt_of_not_ge hA
        exact ⟨hA, ⟨hlt, hB⟩, not_lt.mpr hB⟩
      · right; right
        refine ⟨hA, ?_, lt_of_not_ge hB⟩
        rintro ⟨-, hB'⟩
        exact hB hB'
  · -- branch A domain facts
    intro hA
    have hp0 : 0 ≤ p := by
      rw [hpdef, pco]
      have : (1 : ℝ) ≤ rcl radius := hA
      linarith
    have hD : 0 < q ^ 2 + p ^ 3 := by positivity
    refine ⟨hD, ?_, ?_⟩
    · have : 0 ≤ q * (q ^ 2 + p ^ 3) ^ (-(1 : ℝ) / 2) :=
        mul_nonneg hq.le (Real.rpow_nonneg hD.le _)
      linarith
    · set s : ℝ := (q ^ 2 + p ^ 3) ^ ((1 : ℝ) / 2) with hsdef
      have hs : 0 < s := Real.rpow_pos_of_pos hD _
      have hs2 : s ^ 2 = q ^ 2 + p ^ 3 := by
        rw [hsdef, ← Real.rpow_natCast ((q ^ 2 + p ^ 3) ^ ((1 : ℝ) / 2)) 2,
          ← Real.rpow_mul hD.le]
        norm_num
      have hqs : q ≤ s := by
        have h2 : q ^ 2 ≤ s ^ 2 := by nlinarith [pow_nonneg hp0 3]
        nlinarith
      have hinv : (q ^ 2 + p ^ 3) ^ (-(1 : ℝ) / 2) = s⁻¹ := by
        rw [show (-(1 : ℝ) / 2) = -(1 / 2) by norm_num, Real.rpow_neg hD.le,
          hsdef]
      rw [hinv]
      have : q * s⁻¹ ≤ 1 := by
        rw [mul_inv_le_iff₀ hs]; simpa using hqs
      linarith
  · -- branch B domain fact
    rintro ⟨hlt, hD⟩
    have hp0 : p ≤ 0 := by
      rw [hpdef, pco]; linarith
    have hpm : max (-p) 0 = -p := max_eq_left (by linarith)
    rw [hpm] at hD ⊢
    have hs0 : 0 ≤ Real.sqrt (q ^ 2 - (-p) ^ 3) := Real.sqrt_nonneg _
    have hs1 : Real.sqrt (q ^ 2 - (-p) ^ 3) ≤ q := by
      have h1 : Real.sqrt (q ^ 2 - (-p) ^ 3) ≤ Real.sqrt (q ^ 2) :=
        Real.sqrt_le_sqrt (by nlinarith [pow_nonneg (neg_nonneg.mpr hp0) 3])
      rwa [Real.sqrt_sq hq.le] at h1
    linarith
  · -- branch C domain fact
    intro hC
    rw [condC, ← hqdef, ← hpdef] at hC
    set pm : ℝ := max (-p) 0 with hpmdef
    have hpm0 : 0 ≤ pm := le_max_right _ _
    have hpm : 0 < pm := by
      rcases lt_or_eq_of_le hpm0 with h | h
      · exact h
      · exfalso; rw [← h] at hC; nlinarith
    have hs : 0 < Real.sqrt pm := Real.sqrt_pos.mpr hpm
    have hsp : Real.sqrt pm ^ 2 = pm := Real.sq_sqrt hpm0
    have hinv : pm ^ (-(3 : ℝ) / 2) = (pm * Real.sqrt pm)⁻¹ := by
      rw [show (-(3 : ℝ) / 2) = -(3 / 2) by norm_num, Real.rpow_neg hpm0,
        show ((3 : ℝ) / 2) = 1 + 1 / 2 by norm_num, Real.rpow_add hpm,
        Real.rpow_one, Real.sqrt_eq_rpow]
    rw [hinv, abs_of_pos (by positivity)]
    rw [mul_inv_lt_iff₀ (by positivity)]
    have hq2 : q ^ 2 < (pm * Real.sqrt pm) ^ 2 := by nlinarith
    nlinarith [mul_pos hpm hs, sq_nonneg (q - pm * Real.sqrt pm),
      sq_nonneg (q + pm * Real.sqrt pm)]

/-- C10 witness at `radius = 1/2`, `theta = pi/2` (a branch B or C sample). -/
theorem velrho_branch_safety_witness :
    (0 : ℝ) < 1 / 2 ∧ 0 < velrhoMu0 (1 / 2) (Real.pi / 2) :=
  ⟨by norm_num,
   (velrho_branch_safety (1 / 2) (Real.pi / 2) (by norm_num)
      (by positivity) (by linarith [Real.pi_pos])).2.2.2.2.2⟩

end ClaimBranches

section ListLemmas

/-- Indexed entry of a nonnegative list is nonnegative. -/
theorem getR_nonneg {l : List ℝ} (h : ∀ x ∈ l, 0 ≤ x) (k : ℤ) :
    0 ≤ getR l k := by
  unfold getR
  split_ifs with hk
  · rcases hk with ⟨hk0, hklt⟩
    have hlt : k.toNat < l.length := by omega
    rw [List.getD_eq_getElem l 0 hlt]
    exact h _ (List.getElem_mem hlt)
  · exact le_refl 0

/-- Indexed entry of a list bounded in `[0, B]` stays in `[0, B]`. -/
theorem getR_bound {l : List ℝ} {B : ℝ} (hB : 0 ≤ B)
    (h : ∀ x ∈ l, 0 ≤ x ∧ x ≤ B) (k : ℤ) :
    0 ≤ getR l k ∧ getR l k ≤ B := by
  unfold getR
  split_ifs with hk
  · rcases hk with ⟨hk0, hklt⟩
    have hlt : k.toNat < l.length := by omega
    rw [List.getD_eq_getElem l 0 hlt]
    exact h _ (List.getElem_mem hlt)
  · exact ⟨le_refl 0, hB⟩

/-- `sumR` as a finite sum of the zero-padded entries. -/
theorem sumR_eq_sum (l : List ℝ) :
    sumR l = ∑ j ∈ Finset.range l.length, getR l (j : ℤ) := by
  induction l with
  | nil => simp [sumR]
  | cons x xs ih =>
    have hzero : getR (x :: xs) ((0 : ℕ) : ℤ) = x := by
      simp [getR]
    have hsucc : ∀ j : ℕ, getR (x :: xs) ((j + 1 : ℕ) : ℤ) = getR xs (j : ℤ) := by
      intro j
      unfold getR
      have h1 : ((j + 1 : ℕ) : ℤ).toNat = j + 1 := by omega
      simp only [List.length_cons, h1, List.getD_cons_succ]
      have : (0 ≤ ((j + 1 : ℕ) : ℤ) ∧ ((j + 1 : ℕ) : ℤ) < (xs.length : ℤ) + 1) ↔
          (0 ≤ (j : ℤ) ∧ (j : ℤ) < (xs.length : ℤ)) := by
        constructor <;> intro h <;> constructor <;> omega
      rw [if_congr (by push_cast at this ⊢; exact this) rfl rfl]
      split_ifs with h
      · have : (j : ℤ).toNat = j := by omega
        rw [this]
      · rfl
    rw [show (x :: xs).length = xs.length + 1 from rfl, Finset.sum_range_succ']
    simp only [hsucc, hzero]
    rw [show sumR (x :: xs) = x + sumR xs from rfl, ih]
    ring

/-- A sum of nonnegative entries is nonnegative. -/
theorem sumR_nonneg {l : List ℝ} (h : ∀ x ∈ l, 0 ≤ x) : 0 ≤ sumR l := by
  induction l with
  | nil => simp [sumR]
  | cons x xs ih =>
    have hx := h x (List.mem_cons_self x xs)
    have hxs := ih fun y hy => h y (List.mem_cons_of_mem x hy)
    show 0 ≤ x + sumR xs
    linarith

/-- A sum of positive entries of a nonempty list is positive. -/
theorem sumR_pos {l : List ℝ} (hne : l ≠ []) (h : ∀ x ∈ l, 0 < x) :
    0 < sumR l := by
  cases l with
  | nil => exact absurd rfl hne
  | cons x xs =>
    have hx := h x (List.mem_cons_self x xs)
    have hxs : 0 ≤ sumR xs :=
      sumR_nonneg fun y hy => (h y (List.mem_cons_of_mem x hy)).le
    show 0 < x + sumR xs
    linarith

/-- Dividing every entry divides the sum. -/
theorem sumR_map_div (l : List ℝ) (s : ℝ) :
    sumR (l.map (· / s)) = sumR l / s := by
  induction l with
  | nil => simp [sumR]
  | cons x xs ih =>
    show x / s + sumR (xs.map (· / s)) = (x + sumR xs) / s
    rw [ih, add_div]

/-- Every entry is at most `maxR`. -/
theorem le_maxR {l : List ℝ} {x : ℝ} (h : x ∈ l) : x ≤ maxR l := by
  induction l with
  | nil => cases h
  | cons y ys ih =>
    rcases List.mem_cons.mp h with rfl | hmem
    · exact le_max_left _ _
    · exact le_trans (ih hmem) (le_max_right _ _)

/-- `maxR` is nonnegative. -/
theorem maxR_nonneg (l : List ℝ) : 0 ≤ maxR l := by
  induction l with
  | nil => simp [maxR]
  | cons y ys ih => exact le_trans ih (le_max_right _ _)

/-- Every cube entry is at most `maxCube`. -/
theorem le_maxCube {c : List (List ℝ)} {r : List ℝ} {x : ℝ} (hr : r ∈ c)
    (hx : x ∈ r) : x ≤ maxCube c := by
  unfold maxCube
  exact le_trans (le_maxR hx) (le_maxR (List.mem_map.mpr ⟨r, hr, rfl⟩))

end ListLemmas

section KernelLemmas

/-- The spectral kernel has nonnegative entries. -/
theorem gaussV_nonneg (v : List ℝ) (lw : ℝ) :
    ∀ x ∈ gaussV v lw, 0 ≤ x := by
  intro x hx
  unfold gaussV at hx
  rcases List.mem_map.mp hx with ⟨y, hy, rfl⟩
  rcases List.mem_map.mp hy with ⟨z, _, rfl⟩
  have hs : 0 ≤ sumR (v.map fun x =>
      Real.exp (-(x - getR v ((v.length : ℤ) / 2 - 1 + (v.length : ℤ) % 2)) ^ 2 /
        lw ^ 2)) := by
    apply sumR_nonneg
    intro w hw
    rcases List.mem_map.mp hw with ⟨u, _, rfl⟩
    exact (Real.exp_pos _).le
  exact div_nonneg (Real.exp_pos _).le hs

/-- The spectral kernel sums to at most 1. -/
theorem gaussV_sum_le_one (v : List ℝ) (lw : ℝ) : sumR (gaussV v lw) ≤ 1 := by
  unfold gaussV
  rw [sumR_map_div]
  exact div_self_le_one _

/-- The spectral kernel of a nonempty velocity axis sums to exactly 1. -/
theorem gaussV_sum_eq_one {v : List ℝ} (hv : v ≠ []) (lw : ℝ) :
    sumR (gaussV v lw) = 1 := by
  unfold gaussV
  rw [sumR_map_div]
  have hpos : 0 < sumR (v.map fun x =>
      Real.exp (-(x - getR v ((v.length : ℤ) / 2 - 1 + (v.length : ℤ) % 2)) ^ 2 /
        lw ^ 2)) := by
    apply sumR_pos
    · simpa using hv
    · intro w hw
      rcases List.mem_map.mp hw with ⟨u, _, rfl⟩
      exact Real.exp_pos _
  exact div_self hpos.ne'

/-- The beam kernel has nonnegative entries. -/
theorem gaussXY_nonneg (xs ys : List ℝ) (bmaj bmin bpa pa : ℝ) :
    ∀ x ∈ gaussXY xs ys bmaj bmin bpa pa, 0 ≤ x := by
  intro x hx
  unfold gaussXY at hx
  rcases List.mem_map.mp hx with ⟨y, hy, rfl⟩
  apply div_nonneg
  · rcases List.mem_flatMap.mp hy with ⟨a, _, ha⟩
    rcases List.mem_map.mp ha with ⟨b, _, rfl⟩
    exact (Real.exp_pos _).le
  · apply sumR_nonneg
    intro w hw
    rcases List.mem_flatMap.mp hw with ⟨a, _, ha⟩
    rcases List.mem_map.mp ha with ⟨b, _, rfl⟩
    exact (Real.exp_pos _).le

/-- The beam kernel sums to at most 1. -/
theorem gaussXY_sum_le_one (xs ys : List ℝ) (bmaj bmin bpa pa : ℝ) :
    sumR (gaussXY xs ys bmaj bmin bpa pa) ≤ 1 := by
  unfold gaussXY
  rw [sumR_map_div]
  exact div_self_le_one _

end KernelLemmas

section ConvLemmas

/-- One output of the `same`-mode convolution with a nonnegative kernel of
sum at most 1 stays inside the input's `[0, B]` bounds. -/
theorem convRow_bound {g f : List ℝ} {B : ℝ} (hB : 0 ≤ B)
    (hg0 : ∀ x ∈ g, 0 ≤ x) (hg1 : sumR g ≤ 1)
    (hf : ∀ x ∈ f, 0 ≤ x ∧ x ≤ B) :
    ∀ y ∈ convRow g f, 0 ≤ y ∧ y ≤ B := by
  intro y hy
  unfold convRow at hy
  rcases List.mem_map.mp hy with ⟨j, _, rfl⟩
  constructor
  · apply Finset.sum_nonneg
    intro i _
    exact mul_nonneg (getR_nonneg hg0 _) (getR_bound hB hf _).1
  · calc ∑ i ∈ Finset.range g.length,
        getR g i * getR f ((j : ℤ) + ((g.length - 1) / 2 : ℕ) - i)
        ≤ ∑ i ∈ Finset.range g.length, getR g i * B := by
          apply Finset.sum_le_sum
          intro i _
          exact mul_le_mul_of_nonneg_left (getR_bound hB hf _).2
            (getR_nonneg hg0 _)
    _ = sumR g * B := by rw [sumR_eq_sum, Finset.sum_mul]
    _ ≤ 1 * B := mul_le_mul_of_nonneg_right hg1 hB
    _ = B := one_mul B

/-- Entries of a row fetched from a bounded cube stay in `[0, B]`. -/
theorem getRow_bound {c : List (List ℝ)} {B : ℝ} (hB : 0 ≤ B)
    (hc : cubeAll (fun x => 0 ≤ x ∧ x ≤ B) c) (k : ℤ) :
    ∀ x ∈ getRow c k, 0 ≤ x ∧ x ≤ B := by
  intro x hx
  unfold getRow at hx
  split_ifs at hx with hk
  · rcases hk with ⟨hk0, hklt⟩
    have hlt : k.toNat < c.length := by omega
    rw [List.getD_eq_getElem c [] hlt] at hx
    exact hc _ (List.getElem_mem hlt) x hx
  · cases hx

/-- The spectral convolution of a `[0, B]`-bounded cube with a nonnegative
kernel of sum at most 1 is `[0, B]`-bounded. -/
theorem convV_bound {g : List ℝ} {c : List (List ℝ)} {B : ℝ} (hB : 0 ≤ B)
    (hg0 : ∀ x ∈ g, 0 ≤ x) (hg1 : sumR g ≤ 1)
    (hc : cubeAll (fun x => 0 ≤ x ∧ x ≤ B) c) :
    cubeAll (fun x => 0 ≤ x ∧ x ≤ B) (convV g c) := by
  intro r hr x hx
  unfold convV at hr
  rcases List.mem_map.mp hr with ⟨j, _, rfl⟩
  rcases List.mem_map.mp hx with ⟨s, _, rfl⟩
  constructor
  · apply Finset.sum_nonneg
    intro i _
    exact mul_nonneg (getR_nonneg hg0 _)
      (getR_bound hB (getRow_bound hB hc _) _).1
  · calc ∑ i ∈ Finset.range g.length,
        getR g i *
          getR (getRow c ((j : ℤ) + ((g.length - 1) / 2 : ℕ) - i)) (s : ℤ)
        ≤ ∑ i ∈ Finset.range g.length, getR g i * B := by
          apply Finset.sum_le_sum
          intro i _
          exact mul_le_mul_of_nonneg_left
            (getR_bound hB (getRow_bound hB hc _) _).2 (getR_nonneg hg0 _)
    _ = sumR g * B := by rw [sumR_eq_sum, Finset.sum_mul]
    _ ≤ 1 * B := mul_le_mul_of_nonneg_right hg1 hB
    _ = B := one_mul B

end ConvLemmas

section PipelineBounds

/-- The saturating intensity map sends `[0, max]` to
`[0, 1 - exp(-taumax)]` when the scale `taumax` is positive. -/
theorem intensity_bound {taumax m t : ℝ} (htm : 0 < taumax) (ht0 : 0 ≤ t)
    (htm' : t ≤ m) :
    0 ≤ intensity taumax m t ∧ intensity taumax m t ≤ 1 - Real.exp (-taumax) := by
  have hdiv : 0 ≤ t / m ∧ t / m ≤ 1 := by
    rcases eq_or_lt_of_le (le_trans ht0 htm') with h | h
    · have ht : t = 0 := le_antisymm (h ▸ htm') ht0
      simp [ht]
    · exact ⟨div_nonneg ht0 h.le, (div_le_one h).mpr htm'⟩
  have he1 : -(t / m) * taumax ≤ 0 := by nlinarith [hdiv.1]
  have he2 : -taumax ≤ -(t / m) * taumax := by nlinarith [hdiv.2]
  constructor
  · have : Real.exp (-(t / m) * taumax) ≤ 1 := by
      rw [Real.exp_le_one_iff]; exact he1
    unfold intensity; linarith
  · have : Real.exp (-taumax) ≤ Real.exp (-(t / m) * taumax) :=
      Real.exp_le_exp.mpr he2
    unfold intensity; linarith

/-- Entries of a row fetched from a nonnegative cube are nonnegative. -/
theorem getRow_nonneg {c : List (List ℝ)} (hc : cubeAll (fun x => 0 ≤ x) c)
    (k : ℤ) : ∀ x ∈ getRow c k, 0 ≤ x := by
  intro x hx
  unfold getRow at hx
  split_ifs at hx with hk
  · rcases hk with ⟨hk0, hklt⟩
    have hlt : k.toNat < c.length := by omega
    rw [List.getD_eq_getElem c [] hlt] at hx
    exact hc _ (List.getElem_mem hlt) x hx
  · cases hx

/-- The spectral convolution of a nonnegative cube with a nonnegative
kernel is nonnegative. -/
theorem convV_nonneg {g : List ℝ} {c : List (List ℝ)}
    (hg0 : ∀ x ∈ g, 0 ≤ x) (hc : cubeAll (fun x => 0 ≤ x) c) :
    cubeAll (fun x => 0 ≤ x) (convV g c) := by
  intro r hr x hx
  unfold convV at hr
  rcases List.mem_map.mp hr with ⟨j, _, rfl⟩
  rcases List.mem_map.mp hx with ⟨s, _, rfl⟩
  apply Finset.sum_nonneg
  intro i _
  exact mul_nonneg (getR_nonneg hg0 _) (getR_nonneg (getRow_nonneg hc _) _)

/-- The deposited velocity cube is nonnegative for nonnegative density. -/
theorem rho2rhocube_nonneg {vlos rho : List (List ℝ)} {vedge : List ℝ}
    (hrho : cubeAll (fun x => 0 ≤ x) rho) :
    ∀ ch ∈ rho2rhocube vlos rho vedge, ∀ col ∈ ch, ∀ x ∈ col, 0 ≤ x := by
  intro ch hch col hcol x hx
  unfold rho2rhocube at hch
  rcases List.mem_map.mp hch with ⟨k, _, rfl⟩
  rcases List.mem_map.mp hcol with ⟨pr, hpr, rfl⟩
  rcases List.mem_map.mp hx with ⟨s, hs, rfl⟩
  have hmem := List.of_mem_zip hs
  have hmemc := List.of_mem_zip hpr
  split_ifs
  · exact hrho _ hmemc.2 _ hmem.2
  · exact le_refl 0

/-- Integration along z of a nonnegative cube with nonnegative spacing is
nonnegative. -/
theorem integrateAlongZ_nonneg {dz : ℝ} {cube : List (List (List ℝ))}
    (hdz : 0 ≤ dz)
    (hc : ∀ ch ∈ cube, ∀ col ∈ ch, ∀ x ∈ col, 0 ≤ x) :
    cubeAll (fun x => 0 ≤ x) (integrateAlongZ dz cube) := by
  intro r hr x hx
  unfold integrateAlongZ at hr
  rcases List.mem_map.mp hr with ⟨ch, hch, rfl⟩
  rcases List.mem_map.mp hx with ⟨col, hcol, rfl⟩
  exact mul_nonneg hdz (sumR_nonneg fun y hy => hc _ hch _ hcol _ hy)

/-- Intensity stage bound: mapping a nonnegative cube through the
saturating intensity map with its own maximum lands in
`[0, 1 - exp(-taumax)]`. -/
theorem intensity_stage_bounds {taumax : ℝ} (htm : 0 < taumax)
    (tau1 : List (List ℝ)) (htau1 : cubeAll (fun x => 0 ≤ x) tau1) :
    cubeAll (fun x => 0 ≤ x ∧ x ≤ 1 - Real.exp (-taumax))
      (tau1.map (List.map (intensity taumax (maxCube tau1)))) := by
  intro r hr x hx
  rcases List.mem_map.mp hr with ⟨r0, hr0, rfl⟩
  rcases List.mem_map.mp hx with ⟨t, ht, rfl⟩
  exact intensity_bound htm (htau1 _ hr0 _ ht) (le_maxCube hr0 ht)

/-- Slice-and-average stage bound: the transverse slice and the sub-grid
block average keep every entry inside `[0, B]`. -/
theorem slice_block_bounds {B : ℝ} (hB : 0 ≤ B) {nsub : ℕ}
    (hnsub : 1 ≤ nsub) (ny : ℕ) (i2 : List (List ℝ))
    (hi2 : cubeAll (fun x => 0 ≤ x ∧ x ≤ B) i2) :
    cubeAll (fun x => 0 ≤ x ∧ x ≤ B)
      ((i2.map (sliceY ny)).map (blockMean nsub)) := by
  intro r hr x hx
  rcases List.mem_map.mp hr with ⟨r1, hr1, rfl⟩
  rcases List.mem_map.mp hr1 with ⟨r2, hr2, rfl⟩
  rcases List.mem_map.mp hx with ⟨k, _, rfl⟩
  have hslice : ∀ y ∈ sliceY ny r2, 0 ≤ y ∧ y ≤ B := by
    intro y hy
    unfold sliceY at hy
    rcases List.mem_map.mp hy with ⟨ix, _, rfl⟩
    exact getR_bound hB (fun z hz => hi2 _ hr2 z hz) _
  constructor
  · apply div_nonneg _ (by positivity)
    apply Finset.sum_nonneg
    intro i _
    exact (getR_bound hB hslice _).1
  · have hnsub' : (0 : ℝ) < nsub := by
      have h1 : (1 : ℕ) ≤ nsub := hnsub
      have : (1 : ℝ) ≤ (nsub : ℝ) := by exact_mod_cast h1
      linarith
    rw [div_le_iff₀ hnsub']
    calc ∑ i ∈ Finset.range nsub, getR (sliceY ny r2) ((k : ℤ) * nsub + i)
        ≤ ∑ _i ∈ Finset.range nsub, B :=
          Finset.sum_le_sum fun i _ => (getR_bound hB hslice _).2
    _ = nsub * B := by rw [Finset.sum_const, Finset.card_range, nsmul_eq_mul]
    _ = B * nsub := by ring

end PipelineBounds

section ConvSum

/-- Sum over a shifted index range as a sum over an integer interval. -/
theorem sum_shift (F : ℤ → ℝ) (n : ℕ) (d : ℤ) :
    ∑ j ∈ Finset.range n, F ((j : ℤ) + d) =
      ∑ t ∈ Finset.Ico d ((n : ℤ) + d), F t := by
  have heq : (Finset.range n).map
      ⟨fun (j : ℕ) => (j : ℤ) + d, fun a b h => by simpa using h⟩ =
      Finset.Ico d ((n : ℤ) + d) := by
    ext t
    simp only [Finset.mem_map, Finset.mem_range, Finset.mem_Ico,
      Function.Embedding.coeFn_mk]
    constructor
    · rintro ⟨a, ha, rfl⟩
      omega
    · rintro ⟨h1, h2⟩
      exact ⟨(t - d).toNat, by omega, by omega⟩
  rw [← heq, Finset.sum_map]
  simp

/-- Sums of concatenated lists add. -/
theorem sumR_append (a b : List ℝ) : sumR (a ++ b) = sumR a + sumR b := by
  induction a with
  | nil => simp [sumR]
  | cons x xs ih =>
    show x + sumR (xs ++ b) = x + sumR xs + sumR b
    rw [ih]; ring

/-- Sum of a list built by mapping over `List.range`. -/
theorem sumR_map_range (n : ℕ) (f : ℕ → ℝ) :
    sumR ((List.range n).map f) = ∑ j ∈ Finset.range n, f j := by
  induction n with
  | zero => simp [sumR]
  | succ k ih =>
    rw [List.range_succ, List.map_append, sumR_append, ih,
      Finset.sum_range_succ]
    simp [sumR]

/-- In-range entry of the per-row-sum list is the fetched row's sum. -/
theorem getR_map_sumR (c : List (List ℝ)) (j : ℕ) (hj : j < c.length) :
    getR (c.map sumR) (j : ℤ) = sumR (getRow c (j : ℤ)) := by
  unfold getR getRow
  have hcond : (0 ≤ (j : ℤ) ∧ (j : ℤ) < ((c.map sumR).length : ℤ)) := by
    rw [List.length_map]; omega
  have hcond' : (0 ≤ (j : ℤ) ∧ (j : ℤ) < (c.length : ℤ)) := by omega
  rw [if_pos hcond, if_pos hcond']
  have htn : (j : ℤ).toNat = j := by omega
  rw [htn, List.getD_eq_getElem _ 0 (by rw [List.length_map]; omega),
    List.getD_eq_getElem _ [] (by omega), List.getElem_map]

/-- A cube's total as a finite double sum of the zero-padded entries. -/
theorem sumCube_eq (c : List (List ℝ)) :
    sumCube c = ∑ j ∈ Finset.range c.length, sumR (getRow c (j : ℤ)) := by
  unfold sumCube
  rw [sumR_eq_sum, List.length_map]
  exact Finset.sum_congr rfl fun j hj =>
    getR_map_sumR c j (Finset.mem_range.mp hj)

/-- Length of an in-range fetched row. -/
theorem getRow_length (c : List (List ℝ)) (j : ℕ) (hj : j < c.length)
    (hw : ∀ r ∈ c, r.length = (c.headD []).length) :
    (getRow c (j : ℤ)).length = (c.headD []).length := by
  unfold getRow
  rw [if_pos (by constructor <;> omega)]
  have htn : (j : ℤ).toNat = j := by omega
  rw [htn, List.getD_eq_getElem _ [] (by omega)]
  exact hw _ (List.getElem_mem _)

/-- Uniform-width cube total as an explicit double sum. -/
theorem sumCube_eq_double (c : List (List ℝ))
    (hw : ∀ r ∈ c, r.length = (c.headD []).length) :
    sumCube c = ∑ j ∈ Finset.range c.length,
      ∑ s ∈ Finset.range (c.headD []).length, getR (getRow c (j : ℤ)) (s : ℤ) := by
  rw [sumCube_eq]
  apply Finset.sum_congr rfl
  intro j hj
  rw [sumR_eq_sum, getRow_length c j (Finset.mem_range.mp hj) hw]

end ConvSum

section ConvSumMain

/-- Total of the `same`-mode velocity convolution: when the cube's support
stays at least half a kernel away from both velocity-axis ends, the
convolved total is the kernel total times the cube total. -/
theorem convV_sum (g : List ℝ) (c : List (List ℝ)) (hm : g ≠ [])
    (hw : ∀ r ∈ c, r.length = (c.headD []).length)
    (hsupp : ∀ k : ℤ, (k < (((g.length - 1) / 2 : ℕ) : ℤ) ∨
        (c.length : ℤ) + (((g.length - 1) / 2 : ℕ) : ℤ) - g.length + 1 ≤ k) →
        ∀ s : ℤ, getR (getRow c k) s = 0) :
    sumCube (convV g c) = sumR g * sumCube c := by
  set n : ℕ := c.length with hndef
  set m : ℕ := g.length with hmdef
  set w : ℕ := (c.headD []).length with hwdef
  set c0 : ℕ := (m - 1) / 2 with hc0def
  have hm1 : 1 ≤ m := by
    rw [hmdef]
    exact List.length_pos.mpr hm
  set S : Finset ℤ := Finset.Ico (c0 : ℤ) ((n : ℤ) + c0 - m + 1) with hSdef
  have keyWindow : ∀ (s d : ℤ), d ≤ (c0 : ℤ) →
      (n : ℤ) + c0 - m + 1 ≤ (n : ℤ) + d →
      ∑ j ∈ Finset.range n, getR (getRow c ((j : ℤ) + d)) s =
        ∑ t ∈ S, getR (getRow c t) s := by
    intro s d h1 h2
    rw [sum_shift (fun t => getR (getRow c t) s) n d]
    symm
    apply Finset.sum_subset
    · intro t ht
      rw [hSdef, Finset.mem_Ico] at ht
      rw [Finset.mem_Ico]
      omega
    · intro t ht hnt
      rw [hSdef, Finset.mem_Ico] at hnt
      apply hsupp
      omega
  have hLHS : sumCube (convV g c) =
      ∑ j ∈ Finset.range n, ∑ s ∈ Finset.range w, ∑ i ∈ Finset.range m,
        getR g i * getR (getRow c ((j : ℤ) + (c0 : ℕ) - i)) (s : ℤ) := by
    unfold convV sumCube
    rw [List.map_map, sumR_map_range]
    apply Finset.sum_congr rfl
    intro j _
    rw [Function.comp_apply, sumR_map_range]
  rw [hLHS]
  have hstep : ∀ s : ℤ, ∀ i ∈ Finset.range m,
      ∑ j ∈ Finset.range n, getR (getRow c ((j : ℤ) + (c0 : ℕ) - i)) s =
        ∑ t ∈ S, getR (getRow c t) s := by
    intro s i hi
    rw [Finset.mem_range] at hi
    have harg : ∀ j : ℕ, ((j : ℤ) + (c0 : ℕ) - i) = (j : ℤ) + ((c0 : ℤ) - i) := by
      intro j; ring
    calc ∑ j ∈ Finset.range n, getR (getRow c ((j : ℤ) + (c0 : ℕ) - i)) s
        = ∑ j ∈ Finset.range n, getR (getRow c ((j : ℤ) + ((c0 : ℤ) - i))) s :=
          Finset.sum_congr rfl fun j _ => by rw [harg j]
    _ = ∑ t ∈ S, getR (getRow c t) s := keyWindow s _ (by omega) (by omega)
  have hRHS : sumCube c = ∑ s ∈ Finset.range w, ∑ t ∈ S, getR (getRow c t) s := by
    rw [sumCube_eq_double c hw, Finset.sum_comm]
    apply Finset.sum_congr rfl
    intro s _
    calc ∑ j ∈ Finset.range n, getR (getRow c (j : ℤ)) (s : ℤ)
        = ∑ j ∈ Finset.range n, getR (getRow c ((j : ℤ) + (0 : ℤ))) (s : ℤ) :=
          Finset.sum_congr rfl fun j _ => by norm_num
    _ = ∑ t ∈ S, getR (getRow c t) (s : ℤ) := keyWindow _ 0 (by omega) (by omega)
  rw [hRHS]
  rw [Finset.sum_comm]
  calc ∑ s ∈ Finset.range w, ∑ j ∈ Finset.range n, ∑ i ∈ Finset.range m,
        getR g i * getR (getRow c ((j : ℤ) + (c0 : ℕ) - i)) (s : ℤ)
      = ∑ s ∈ Finset.range w, ∑ i ∈ Finset.range m, ∑ j ∈ Finset.range n,
        getR g i * getR (getRow c ((j : ℤ) + (c0 : ℕ) - i)) (s : ℤ) :=
        Finset.sum_congr rfl fun s _ => Finset.sum_comm
  _ = ∑ s ∈ Finset.range w, ∑ i ∈ Finset.range m,
        getR g i * ∑ t ∈ S, getR (getRow c t) (s : ℤ) := by
        apply Finset.sum_congr rfl
        intro s _
        apply Finset.sum_congr rfl
        intro i hi
        rw [← Finset.mul_sum, hstep (s : ℤ) i hi]
  _ = ∑ s ∈ Finset.range w, (∑ i ∈ Finset.range m, getR g i) *
        (∑ t ∈ S, getR (getRow c t) (s : ℤ)) :=
        Finset.sum_congr rfl fun s _ => by rw [Finset.sum_mul]
  _ = (∑ i ∈ Finset.range m, getR g i) *
        ∑ s ∈ Finset.range w, ∑ t ∈ S, getR (getRow c t) (s : ℤ) := by
        rw [Finset.mul_sum]
  _ = sumR g * ∑ s ∈ Finset.range w, ∑ t ∈ S, getR (getRow c t) (s : ℤ) := by
        rw [← sumR_eq_sum]

end ConvSumMain

section ClaimSpectral

/-- The spectral kernel built on the axis `[0, 1, 2]` with linewidth 1,
evaluated entrywise. -/
theorem gaussV_012_eval : gaussV [0, 1, 2] 1 =
    [Real.exp (-1) / (Real.exp (-1) + (1 + (Real.exp (-1) + 0))),
     1 / (Real.exp (-1) + (1 + (Real.exp (-1) + 0))),
     Real.exp (-1) / (Real.exp (-1) + (1 + (Real.exp (-1) + 0)))] := by
  unfold gaussV
  norm_num [getR, sumR]

/-- Convolving an impulse sitting in the first velocity channel: the
`same`-mode window drops the kernel tail that falls off the axis. -/
theorem convV_impulse_eval (g : List ℝ) (hlen : g.length = 3) :
    sumCube (convV g [[(1 : ℝ)], [0], [0]]) = getR g 1 + getR g 2 := by
  unfold convV sumCube
  rw [hlen]
  norm_num [List.range_succ, sumR, getRow, getR, Finset.sum_range_succ]
  rfl

/-- C5 counterexample: an optical-depth cube concentrated in the first
velocity channel loses total integrated value under the `same`-mode
spectral convolution (kernel from axis `[0,1,2]`, linewidth 1): the sums
before and after differ. -/
theorem spectral_conv_sum_counterexample :
    sumCube (convV (gaussV [0, 1, 2] 1) [[(1 : ℝ)], [0], [0]]) ≠
      sumCube [[(1 : ℝ)], [0], [0]] := by
  have hglen : (gaussV [0, 1, 2] 1).length = 3 := by simp [gaussV]
  rw [convV_impulse_eval _ hglen, gaussV_012_eval]
  have hE := Real.exp_pos (-1 : ℝ)
  set E : ℝ := Real.exp (-1) with hEdef
  have hS : 0 < E + (1 + (E + 0)) := by linarith
  have h1 : getR [E / (E + (1 + (E + 0))), 1 / (E + (1 + (E + 0))),
      E / (E + (1 + (E + 0)))] 1 = 1 / (E + (1 + (E + 0))) := by
    norm_num [getR]
  have h2 : getR [E / (E + (1 + (E + 0))), 1 / (E + (1 + (E + 0))),
      E / (E + (1 + (E + 0)))] 2 = E / (E + (1 + (E + 0))) := by
    norm_num [getR]
    rfl
  have hc : sumCube [[(1 : ℝ)], [0], [0]] = 1 := by
    norm_num [sumCube, sumR]
  rw [h1, h2, hc, div_add_div_same]
  intro h
  rw [div_eq_one_iff_eq hS.ne'] at h
  nlinarith

/-- C5 (amended): the spectral convolution of `generate_pvd` preserves the
total integrated value of the optical-depth cube whenever the cube
vanishes within half a kernel width of either end of the velocity axis
(the `same` mode truncates the zero-padded convolution; mass within
`(m-1)/2` channels of an end is partly dropped). -/
theorem spectral_conv_sum_preserved (v : List ℝ) (lw : ℝ)
    (c : List (List ℝ)) (hv : v ≠ [])
    (hw : ∀ r ∈ c, r.length = (c.headD []).length)
    (hsupp : ∀ k : ℤ, (k < ((((gaussV v lw).length - 1) / 2 : ℕ) : ℤ) ∨
        (c.length : ℤ) + ((((gaussV v lw).length - 1) / 2 : ℕ) : ℤ) -
          (gaussV v lw).length + 1 ≤ k) →
        ∀ s : ℤ, getR (getRow c k) s = 0) :
    sumCube (convV (gaussV v lw) c) = sumCube c := by
  have hne : gaussV v lw ≠ [] := by
    simp [gaussV, hv]
  rw [convV_sum (gaussV v lw) c hne hw hsupp, gaussV_sum_eq_one hv lw, one_mul]

/-- C5 witness: a cube concentrated in the middle channel of a three
channel axis keeps its total. -/
theorem spectral_conv_sum_preserved_witness :
    ([0, 1, 2] : List ℝ) ≠ [] ∧
      sumCube (convV (gaussV [0, 1, 2] 1) [[(0 : ℝ)], [1], [0]]) =
        sumCube [[(0 : ℝ)], [1], [0]] :=
  ⟨by simp,
   spectral_conv_sum_preserved [0, 1, 2] 1 [[(0 : ℝ)], [1], [0]] (by simp)
     (by intro r hr; fin_cases hr <;> rfl)
     (by
       intro k hk s
       have hlen : (gaussV [0, 1, 2] (1 : ℝ)).length = 3 := by simp [gaussV]
       rw [hlen] at hk
       norm_num at hk
       have hz : getRow [[(0 : ℝ)], [1], [0]] k = [0] ∨
           getRow [[(0 : ℝ)], [1], [0]] k = [] := by
         unfold getRow
         split_ifs with h
         · simp only [List.length_cons, List.length_nil] at h
           have hkv : k.toNat = 0 ∨ k.toNat = 2 := by omega
           rcases hkv with h' | h' <;> rw [h'] <;> simp
         · right; rfl
       rcases hz with hz | hz <;> rw [hz]
       · unfold getR
         split_ifs with h
         · have hs0 : s.toNat = 0 := by
             simp only [List.length_cons, List.length_nil] at h
             omega
           rw [hs0]
           rfl
         · rfl
       · unfold getR
         split_ifs with h
         · exfalso
           simp only [List.length_nil] at h
           omega
         · rfl)⟩

end ClaimSpectral

section ClaimCache

/-- Velocity bin edges of the axis `[0, 1, 2]`. -/
theorem vedgeOf_012_eval : vedgeOf [0, 1, 2] = [-(1/2), 1/2, 3/2, 5/2] := by
  norm_num [vedgeOf]

/-- Deposition of a single sample with density 1 and velocity 1: all mass
lands in the middle bin. -/
theorem rho2rhocube_012_eval :
    rho2rhocube [[(1 : ℝ)]] [[(1 : ℝ)]] [-(1/2), 1/2, 3/2, 5/2] =
      [[[0]], [[1]], [[0]]] := by
  norm_num [rho2rhocube, getR, List.range_succ]

/-- Line integration of the deposited single-sample cube. -/
theorem integrateZ_012_eval :
    integrateAlongZ 1 [[[(0 : ℝ)]], [[1]], [[0]]] = [[0], [1], [0]] := by
  norm_num [integrateAlongZ, sumR]

/-- Convolving a middle-channel impulse with a length-3 kernel reproduces
the kernel. -/
theorem convV_mid_eval (g : List ℝ) (hlen : g.length = 3) :
    convV g [[(0 : ℝ)], [1], [0]] = [[getR g 0], [getR g 1], [getR g 2]] := by
  unfold convV
  rw [hlen]
  norm_num [List.range_succ, getRow, getR, Finset.sum_range_succ]
  rfl

/-- Closed form of the `generate_pvd` core on the single-sample scenario
for a length-3 kernel `[p, q, r]` whose middle entry is largest. -/
theorem generate_pvd_core_mid_eval (p q r : ℝ) (h0p : 0 ≤ p) (hpq : p ≤ q)
    (h0r : 0 ≤ r) (hrq : r ≤ q) :
    generate_pvd_core 1 (some [p, q, r]) none 1 1 [[(0 : ℝ)], [1], [0]] =
      [[1 - Real.exp (-(p / q))], [1 - Real.exp (-(q / q))],
       [1 - Real.exp (-(r / q))]] := by
  simp only [generate_pvd_core]
  rw [convV_mid_eval [p, q, r] (by simp)]
  have hg0 : getR [p, q, r] 0 = p := by norm_num [getR]
  have hg1 : getR [p, q, r] 1 = q := by norm_num [getR]
  have hg2 : getR [p, q, r] 2 = r := by norm_num [getR]; try rfl
  rw [hg0, hg1, hg2]
  have e1 : p ⊔ 0 = p := max_eq_left h0p
  have e2 : q ⊔ 0 = q := max_eq_left (le_trans h0p hpq)
  have e3 : r ⊔ 0 = r := max_eq_left h0r
  have hM : maxCube [[p], [q], [r]] = q := by
    unfold maxCube maxR
    simp only [List.map_cons, List.map_nil, List.foldr_cons, List.foldr_nil]
    rw [e1, e2, e3]
    rw [e3, max_eq_left hrq, max_eq_right hpq]
  rw [hM]
  norm_num [intensity, sliceY, blockMean, getR, List.range_succ,
    Finset.sum_range_succ]

/-- The spectral kernel on the axis `[0, 1, 2]` with linewidth 2. -/
theorem gaussV_012_lw2_eval : gaussV [0, 1, 2] 2 =
    [Real.exp (-(1 / 4)) /
       (Real.exp (-(1 / 4)) + (1 + (Real.exp (-(1 / 4)) + 0))),
     1 / (Real.exp (-(1 / 4)) + (1 + (Real.exp (-(1 / 4)) + 0))),
     Real.exp (-(1 / 4)) /
       (Real.exp (-(1 / 4)) + (1 + (Real.exp (-(1 / 4)) + 0)))] := by
  unfold gaussV
  norm_num [getR, sumR]

/-- C4 (code bug witness): `generate_pvd` is not deterministic across
calls.  Two call histories ending in the same arguments (linewidth 2)
differ: a fresh cache gives the linewidth-2 kernel, while a history that
first ran with linewidth 1 reuses the cached linewidth-1 kernel — the
cache is checked only for `None` and never invalidated when the
determining parameter changes. -/
theorem generate_pvd_cache_divergence :
    (generate_pvd_st
        (generate_pvd_st Precalc.empty [0, 1, 2] 1 [[(1 : ℝ)]] [[1]] 1
          none (some 1) 0 1 1).2
        [0, 1, 2] 1 [[(1 : ℝ)]] [[1]] 1 none (some 2) 0 1 1).1 ≠
      (generate_pvd_st Precalc.empty [0, 1, 2] 1 [[(1 : ℝ)]] [[1]] 1
        none (some 2) 0 1 1).1 := by
  show generate_pvd_core 1 (some (gaussV [0, 1, 2] 1)) none 1 1
      (integrateAlongZ 1
        (rho2rhocube [[(1 : ℝ)]] [[(1 : ℝ)]] (vedgeOf [0, 1, 2]))) ≠
    generate_pvd_core 1 (some (gaussV [0, 1, 2] 2)) none 1 1
      (integrateAlongZ 1
        (rho2rhocube [[(1 : ℝ)]] [[(1 : ℝ)]] (vedgeOf [0, 1, 2])))
  rw [vedgeOf_012_eval, rho2rhocube_012_eval, integrateZ_012_eval,
    gaussV_012_eval, gaussV_012_lw2_eval]
  have hE1 := Real.exp_pos (-1 : ℝ)
  have hE2 := Real.exp_pos (-(1 / 4) : ℝ)
  set E1 : ℝ := Real.exp (-1) with hE1def
  set E2 : ℝ := Real.exp (-(1 / 4)) with hE2def
  have hS1 : 0 < E1 + (1 + (E1 + 0)) := by linarith
  have hS2 : 0 < E2 + (1 + (E2 + 0)) := by linarith
  have h1le : E1 ≤ 1 := Real.exp_le_one_iff.mpr (by norm_num)
  have h2le : E2 ≤ 1 := Real.exp_le_one_iff.mpr (by norm_num)
  rw [generate_pvd_core_mid_eval _ _ _ (by positivity)
      ((div_le_div_iff_of_pos_right hS1).mpr h1le) (by positivity)
      ((div_le_div_iff_of_pos_right hS1).mpr h1le),
    generate_pvd_core_mid_eval _ _ _ (by positivity)
      ((div_le_div_iff_of_pos_right hS2).mpr h2le) (by positivity)
      ((div_le_div_iff_of_pos_right hS2).mpr h2le)]
  intro h
  simp only [List.cons.injEq, and_true] at h
  have hfirst := h.1
  have hq1 : E1 / (E1 + (1 + (E1 + 0))) / (1 / (E1 + (1 + (E1 + 0)))) = E1 := by
    field_simp
  have hq2 : E2 / (E2 + (1 + (E2 + 0))) / (1 / (E2 + (1 + (E2 + 0)))) = E2 := by
    field_simp
  rw [hq1, hq2] at hfirst
  have hEeq : E1 = E2 := by
    have h2 : Real.exp (-E1) = Real.exp (-E2) := by linarith
    have h3 := Real.exp_eq_exp.mp h2
    linarith
  rw [hE1def, hE2def] at hEeq
  have := Real.exp_eq_exp.mp hEeq
  norm_num at this

end ClaimCache

section ClaimNested

/-- Telescoping of the nested line integral: for an aligned level list the
total is the coarsest level's full span times the constant field. -/
theorem integrateAlongNested_total (c : ℚ) :
    ∀ (ls : List NestLevel) (l : NestLevel), levelsNested (l :: ls) →
      integrateAlongNested c (l :: ls) = c * l.n * l.w := by
  intro ls
  induction ls with
  | nil => intro l _; rfl
  | cons l2 rest ih =>
    intro l hn
    obtain ⟨hmn, hmw, htail⟩ := hn
    show c * ((l.n : ℚ) - l.msub) * l.w + integrateAlongNested c (l2 :: rest) =
      c * l.n * l.w
    rw [ih l2 htail]
    linear_combination (-c) * hmw

/-- C2: for every nested grid of 2 or 3 levels and a field that is the
constant `c` at every sample, the line integral along the path returns
`c * L`, where `L = n0 * w0` is the full physical length of the coarsest
level's span: no physical sub-interval is counted by two levels. -/
theorem integrate_along_no_double_count (c : ℚ) (ls : List NestLevel)
    (hlen : ls.length = 2 ∨ ls.length = 3) (hnest : levelsNested ls) :
    integrateAlongNested c ls =
      c * ((ls.headD ⟨0, 0, 0⟩).n : ℚ) * (ls.headD ⟨0, 0, 0⟩).w := by
  cases ls with
  | nil => simp at hlen
  | cons l rest => exact integrateAlongNested_total c rest l hnest

/-- C2 witness: a 2-level grid, coarse level 10 cells of width 1 with 4
cells refined into 8 half-width cells; the constant 3 integrates to 30. -/
theorem integrate_along_no_double_count_witness :
    levelsNested [⟨10, 1, 4⟩, ⟨8, 1 / 2, 0⟩] ∧
      integrateAlongNested 3 [⟨10, 1, 4⟩, ⟨8, 1 / 2, 0⟩] = 30 := by
  have hnest : levelsNested [(⟨10, 1, 4⟩ : NestLevel), ⟨8, 1 / 2, 0⟩] := by
    show 4 ≤ 10 ∧ ((4 : ℕ) : ℚ) * 1 = ((8 : ℕ) : ℚ) * (1 / 2) ∧ True
    norm_num
  refine ⟨hnest, ?_⟩
  rw [integrate_along_no_double_count 3 _ (Or.inl (by rfl)) hnest]
  norm_num

end ClaimNested

section ClaimAxis

/-- C6 (code bug witness): called with an axis keyword that is none of
'major', 'minor', 'both', `generate_mockpvd` returns the plain integer
sentinel 0 — a data value, not an error result — whatever the valid-axis
computation would have produced. -/
theorem generate_mockpvd_invalid_axis_sentinel (result : GenOut) :
    generate_mockpvd_check [Ch.alpha 23] result = GenOut.sentinel 0 := by
  rfl

end ClaimAxis

section DigitLemmas

/-- The fuelled digit expansion is correct once the fuel covers the
number. -/
theorem valLE_natDigitsAux : ∀ fuel n : ℕ, n ≤ fuel →
    valLE (natDigitsAux fuel n) = n := by
  intro fuel
  induction fuel with
  | zero =>
    intro n hn
    have : n = 0 := by omega
    subst this
    rfl
  | succ f ih =>
    intro n hn
    by_cases h0 : n = 0
    · subst h0; rfl
    · show valLE (if n = 0 then [] else n % 10 :: natDigitsAux f (n / 10)) = n
      rw [if_neg h0]
      show n % 10 + 10 * valLE (natDigitsAux f (n / 10)) = n
      rw [ih (n / 10) (by omega)]
      omega

/-- Appending one digit multiplies the big-endian value by ten. -/
theorem valBE_append (ds : List ℕ) (d : ℕ) :
    valBE (ds ++ [d]) = valBE ds * 10 + d := by
  induction ds with
  | nil => simp [valBE]
  | cons e es ih =>
    show e * 10 ^ (es ++ [d]).length + valBE (es ++ [d]) =
      (e * 10 ^ es.length + valBE es) * 10 + d
    rw [ih, List.length_append]
    simp [pow_succ]
    ring

/-- Big-endian value of the reversed little-endian digits. -/
theorem valBE_reverse (ds : List ℕ) : valBE ds.reverse = valLE ds := by
  induction ds with
  | nil => rfl
  | cons d es ih =>
    rw [List.reverse_cons, valBE_append, ih]
    show valLE es * 10 + d = d + 10 * valLE es
    ring

/-- The printed integer part carries the integer value. -/
theorem valBE_intDigits (n : ℕ) : valBE (intDigits n) = n := by
  unfold intDigits
  split_ifs with h
  · subst h; rfl
  · rw [valBE_reverse, valLE_natDigitsAux n n le_rfl]

/-- The printed integer part is never empty. -/
theorem intDigits_ne_nil (n : ℕ) : intDigits n ≠ [] := by
  unfold intDigits
  split_ifs with h
  · simp
  · show (natDigitsAux n n).reverse ≠ []
    cases hn : n with
    | zero => exact absurd hn h
    | succ k =>
      show (if k + 1 = 0 then [] else
        (k + 1) % 10 :: natDigitsAux k ((k + 1) / 10)).reverse ≠ []
      rw [if_neg (by omega)]
      simp

/-- The fixed fractional part has exactly `k` digits. -/
theorem fixedDigits_length (k n : ℕ) : (fixedDigits k n).length = k := by
  induction k with
  | zero => rfl
  | succ j ih =>
    show (n / 10 ^ j % 10 :: fixedDigits j n).length = j + 1
    simp [ih]

/-- One decimal digit splits off a power-of-ten remainder. -/
theorem mod_pow_succ_digit (k n : ℕ) :
    n % 10 ^ (k + 1) = n / 10 ^ k % 10 * 10 ^ k + n % 10 ^ k := by
  have hP : 0 < 10 ^ k := pow_pos (by norm_num) k
  have hmod : n % 10 ^ k < 10 ^ k := Nat.mod_lt _ hP
  have hdig : n / 10 ^ k % 10 ≤ 9 := by omega
  conv_lhs => rw [← Nat.div_add_mod n (10 ^ k), pow_succ]
  rw [Nat.add_mod, Nat.mul_mod_mul_left,
    Nat.mod_eq_of_lt (lt_of_lt_of_le hmod (Nat.le_mul_of_pos_right _ (by norm_num)))]
  rw [Nat.mod_eq_of_lt]
  · ring
  · have h9 : 10 ^ k * (n / 10 ^ k % 10) ≤ 10 ^ k * 9 :=
      Nat.mul_le_mul_left _ hdig
    omega

/-- The fixed fractional digits carry the value modulo `10^k`. -/
theorem valBE_fixedDigits (k n : ℕ) : valBE (fixedDigits k n) = n % 10 ^ k := by
  induction k with
  | zero =>
    simp [fixedDigits, valBE]
    omega
  | succ j ih =>
    show n / 10 ^ j % 10 * 10 ^ (fixedDigits j n).length +
      valBE (fixedDigits j n) = n % 10 ^ (j + 1)
    rw [fixedDigits_length, ih, mod_pow_succ_digit]

/-- Digit tokens parse back to their digit list. -/
theorem parseDigits_map (ds : List ℕ) :
    parseDigits (ds.map Ch.digit) = some ds := by
  induction ds with
  | nil => rfl
  | cons d es ih =>
    show parseDigits (Ch.digit d :: es.map Ch.digit) = some (d :: es)
    simp [parseDigits, chDigit, ih]

/-- Splitting past a dot-free prefix finds the separator. -/
theorem splitAtDot_cons_ne (c : Ch) (rest : List Ch) (hc : c ≠ Ch.dot) :
    splitAtDot (c :: rest) =
      ((splitAtDot rest).1.cons c, (splitAtDot rest).2) := by
  cases c
  · rfl
  · exact absurd rfl hc
  · rfl
  · rfl
  · rfl

/-- Splitting the printed token separates integer and fraction parts. -/
theorem splitAtDot_append (as bs : List Ch) (h : Ch.dot ∉ as) :
    splitAtDot (as ++ Ch.dot :: bs) = (as, some bs) := by
  induction as with
  | nil => rfl
  | cons a as ih =>
    have ha : a ≠ Ch.dot := fun hh => h (hh ▸ List.mem_cons_self _ _)
    have h' : Ch.dot ∉ as := fun hm => h (List.mem_cons_of_mem _ hm)
    rw [List.cons_append, splitAtDot_cons_ne a _ ha, ih h']

end DigitLemmas

section PrintParse

/-- Digit tokens never contain the dot. -/
theorem dot_not_mem_digits (ds : List ℕ) : Ch.dot ∉ ds.map Ch.digit := by
  intro h
  rcases List.mem_map.mp h with ⟨d, _, hd⟩
  cases hd

/-- Unsigned round trip of the fixed-point serialization. -/
theorem parseNumAbs_print (n : ℕ) :
    parseNumAbs ((intDigits (n / 10 ^ 6)).map Ch.digit ++ [Ch.dot] ++
      (fixedDigits 6 n).map Ch.digit) = some ((n : ℚ) / 10 ^ 6) := by
  have hsplit : splitAtDot ((intDigits (n / 10 ^ 6)).map Ch.digit ++ [Ch.dot] ++
      (fixedDigits 6 n).map Ch.digit) =
      ((intDigits (n / 10 ^ 6)).map Ch.digit,
       some ((fixedDigits 6 n).map Ch.digit)) := by
    rw [List.append_assoc, List.singleton_append]
    exact splitAtDot_append _ _ (dot_not_mem_digits _)
  unfold parseNumAbs
  rw [hsplit]
  have hne : (intDigits (n / 10 ^ 6)).map Ch.digit ≠ [] := by
    simp [intDigits_ne_nil]
  simp only [parseDigits_map]
  rw [if_neg hne]
  rw [valBE_intDigits, valBE_fixedDigits, fixedDigits_length]
  congr 1
  have hZ : n / 1000000 * 1000000 + n % 1000000 = n := Nat.div_add_mod' n 1000000
  have hdm' : ((n / 1000000 : ℕ) : ℚ) * 1000000 + ((n % 1000000 : ℕ) : ℚ) =
      (n : ℚ) := by exact_mod_cast hZ
  field_simp
  norm_num
  linarith [hdm']

/-- C7 core: parsing the printed fixed-point token recovers the value
`m / 10^6` exactly. -/
theorem parseNum_printFixed (m : ℤ) :
    parseNum (printFixed m) = some ((m : ℚ) / 10 ^ 6) := by
  by_cases hm : m < 0
  · have : printFixed m = Ch.minus :: ((intDigits (m.natAbs / 10 ^ 6)).map Ch.digit ++
        [Ch.dot] ++ (fixedDigits 6 m.natAbs).map Ch.digit) := by
      unfold printFixed
      rw [if_pos hm]
      simp
    rw [this]
    show (parseNumAbs _).map (fun q => -q) = _
    rw [parseNumAbs_print]
    have habs : ((m.natAbs : ℕ) : ℚ) = -(m : ℚ) := by
      rw [Int.cast_natAbs, abs_of_neg hm]
      push_cast
      ring
    simp only [Option.map_some']
    rw [habs]
    congr 1
    ring
  · obtain ⟨d, ds, hds⟩ := List.exists_cons_of_ne_nil (intDigits_ne_nil (m.natAbs / 10 ^ 6))
    have hpr : printFixed m = (intDigits (m.natAbs / 10 ^ 6)).map Ch.digit ++
        [Ch.dot] ++ (fixedDigits 6 m.natAbs).map Ch.digit := by
      unfold printFixed
      rw [if_neg hm]
      simp
    have hcons : printFixed m = Ch.digit d ::
        (ds.map Ch.digit ++ [Ch.dot] ++ (fixedDigits 6 m.natAbs).map Ch.digit) := by
      rw [hpr, hds]
      simp
    have hparse : parseNum (printFixed m) = parseNumAbs (printFixed m) := by
      rw [hcons]
      rfl
    rw [hparse, hpr, parseNumAbs_print]
    have habs : ((m.natAbs : ℕ) : ℚ) = (m : ℚ) := by
      rw [Int.cast_natAbs, abs_of_nonneg (le_of_not_lt hm)]
    rw [habs]

end PrintParse

section TableRoundTrip

/-- A predicate true on every token keeps the whole line. -/
theorem takeWhile_all {α : Type} (p : α → Bool) :
    ∀ l : List α, (∀ x ∈ l, p x = true) → l.takeWhile p = l := by
  intro l
  induction l with
  | nil => intro _; rfl
  | cons x xs ih =>
    intro h
    rw [List.takeWhile_cons, h x (List.mem_cons_self _ _),
      ih fun y hy => h y (List.mem_cons_of_mem _ hy)]
    simp

/-- The comment character never occurs in a printed number token. -/
theorem hash_not_mem_printFixed (m : ℤ) : Ch.hash ∉ printFixed m := by
  intro h
  unfold printFixed at h
  rcases List.mem_append.mp h with h1 | h1
  · rcases List.mem_append.mp h1 with h2 | h2
    · rcases List.mem_append.mp h2 with h3 | h3
      · split_ifs at h3 <;> simp at h3
      · rcases List.mem_map.mp h3 with ⟨d, _, hd⟩
        cases hd
    · simp at h2
  · rcases List.mem_map.mp h1 with ⟨d, _, hd⟩
    cases hd

/-- Comment stripping leaves a data row untouched. -/
theorem stripComment_data_row (i : ℕ) (a b c d : ℤ) :
    stripComment [labelTok i, printFixed a, printFixed b, printFixed c,
      printFixed d] =
      [labelTok i, printFixed a, printFixed b, printFixed c, printFixed d] := by
  apply takeWhile_all
  intro tok htok
  rw [decide_eq_true_eq]
  rcases List.mem_cons.mp htok with rfl | htok
  · intro hmem
    simp [labelTok] at hmem
  rcases List.mem_cons.mp htok with rfl | htok
  · exact hash_not_mem_printFixed a
  rcases List.mem_cons.mp htok with rfl | htok
  · exact hash_not_mem_printFixed b
  rcases List.mem_cons.mp htok with rfl | htok
  · exact hash_not_mem_printFixed c
  rcases List.mem_cons.mp htok with rfl | htok
  · exact hash_not_mem_printFixed d
  · cases htok

/-- Comment stripping erases the header line. -/
theorem stripComment_header : stripComment headerLine = [] := by
  rfl

/-- Traversal of a mapped list whose images all parse. -/
theorem optTraverse_map_some {α β γ : Type} (f : β → Option γ) (g : α → β)
    (k : α → γ) :
    ∀ l : List α, (∀ x ∈ l, f (g x) = some (k x)) →
      optTraverse f (l.map g) = some (l.map k) := by
  intro l
  induction l with
  | nil => intro _; rfl
  | cons x xs ih =>
    intro h
    show optTraverse f (g x :: xs.map g) = some (k x :: xs.map k)
    show (match f (g x), optTraverse f (xs.map g) with
      | some y, some ys => some (y :: ys)
      | _, _ => none) = some (k x :: xs.map k)
    rw [h x (List.mem_cons_self _ _),
      ih fun y hy => h y (List.mem_cons_of_mem _ hy)]

/-- A written data row parses back to its four scaled values. -/
theorem parseRow_data (i : ℕ) (a b c d : ℤ) :
    parseRow [labelTok i, printFixed a, printFixed b, printFixed c,
      printFixed d] =
      some ((a : ℚ) / 10 ^ 6, (b : ℚ) / 10 ^ 6, (c : ℚ) / 10 ^ 6,
        (d : ℚ) / 10 ^ 6) := by
  show (match parseNum (printFixed a), parseNum (printFixed b),
      parseNum (printFixed c), parseNum (printFixed d) with
    | some q1, some q2, some q3, some q4 => some (q1, q2, q3, q4)
    | _, _, _, _ => none) = _
  rw [parseNum_printFixed, parseNum_printFixed, parseNum_printFixed,
    parseNum_printFixed]

/-- C7: writing a fit result with `writeout_fitres` and reading the file
back with `read_fitres` reproduces every (best, low, mid, high) value
exactly at the serialization's decimal precision (values `m/10^6` with six
printed decimals); the label column and the `# popt plow pmid phigh`
header line are ignored on re-parse, columns 1..4 being read by index. -/
theorem writeout_read_fitres_roundtrip (popt plow pmid phigh : List ℤ)
    (h1 : popt.length = 7) (h2 : plow.length = 7) (h3 : pmid.length = 7)
    (h4 : phigh.length = 7) :
    read_fitres (writeout_fitres popt plow pmid phigh) =
      some ((List.range 7).map fun i =>
        ((popt.getD i 0 : ℚ) / 10 ^ 6, (plow.getD i 0 : ℚ) / 10 ^ 6,
         (pmid.getD i 0 : ℚ) / 10 ^ 6, (phigh.getD i 0 : ℚ) / 10 ^ 6)) := by
  unfold read_fitres writeout_fitres
  rw [List.map_cons, stripComment_header, List.map_map]
  have hrows : ((List.range 7).map
      (stripComment ∘ fun i =>
        [labelTok i, printFixed (popt.getD i 0), printFixed (plow.getD i 0),
         printFixed (pmid.getD i 0), printFixed (phigh.getD i 0)])) =
      (List.range 7).map fun i =>
        [labelTok i, printFixed (popt.getD i 0), printFixed (plow.getD i 0),
         printFixed (pmid.getD i 0), printFixed (phigh.getD i 0)] := by
    apply List.map_congr_left
    intro i _
    exact stripComment_data_row i _ _ _ _
  rw [hrows]
  rw [List.filter_cons]
  norm_num
  rw [List.filter_eq_self.mpr]
  · apply optTraverse_map_some
    intro i _
    exact parseRow_data i _ _ _ _
  · intro row hrow
    rcases List.mem_map.mp hrow with ⟨i, _, rfl⟩
    simp

end TableRoundTrip

section ClaimRoundTrip

/-- C7 witness on a concrete seven-parameter fit result. -/
theorem writeout_read_fitres_roundtrip_witness :
    read_fitres (writeout_fitres [1500000, -2500000, 0, 1, 10000000, 333, 42]
        [0, 1, 2, 3, 4, 5, 6] [7, -8, 9, -10, 11, -12, 13]
        [1000000, 2000000, 3000000, 4000000, 5000000, 6000000, 7000000]) =
      some ((List.range 7).map fun i =>
        ((([1500000, -2500000, 0, 1, 10000000, 333, 42] : List ℤ).getD i 0 : ℚ) / 10 ^ 6,
         ((([0, 1, 2, 3, 4, 5, 6] : List ℤ).getD i 0 : ℚ)) / 10 ^ 6,
         ((([7, -8, 9, -10, 11, -12, 13] : List ℤ).getD i 0 : ℚ)) / 10 ^ 6,
         ((([1000000, 2000000, 3000000, 4000000, 5000000, 6000000, 7000000] :
            List ℤ).getD i 0 : ℚ)) / 10 ^ 6)) :=
  writeout_read_fitres_roundtrip _ _ _ _ rfl rfl rfl rfl

end ClaimRoundTrip

section Conv2Lemmas

/-- A list whose running maximum against the floor 0 is positive contains
a positive entry. -/
theorem maxR_pos_exists {l : List ℝ} (h : 0 < maxR l) : ∃ x ∈ l, 0 < x := by
  induction l with
  | nil => simp [maxR] at h
  | cons y ys ih =>
    simp only [maxR, List.foldr_cons] at h
    rcases lt_max_iff.mp h with hy | hys
    · exact ⟨y, List.mem_cons_self y ys, hy⟩
    · rcases ih hys with ⟨x, hx, hx0⟩
      exact ⟨x, List.mem_cons_of_mem y hx, hx0⟩

/-- A cube whose maximum is positive contains a positive entry. -/
theorem maxCube_pos_exists {c : List (List ℝ)} (h : 0 < maxCube c) :
    ∃ r ∈ c, ∃ x ∈ r, 0 < x := by
  rcases maxR_pos_exists h with ⟨m, hm, hm0⟩
  rcases List.mem_map.mp hm with ⟨r, hr, rfl⟩
  rcases maxR_pos_exists hm0 with ⟨x, hx, hx0⟩
  exact ⟨r, hr, x, hx, hx0⟩

/-- An in-range integer lookup is the plain list entry. -/
theorem getR_natCast {l : List ℝ} {s : ℕ} (hs : s < l.length) :
    getR l (s : ℤ) = l.getD s 0 := by
  unfold getR
  rw [if_pos (by constructor <;> omega)]
  have htn : ((s : ℤ)).toNat = s := by omega
  rw [htn]

/-- An in-range integer row lookup is the plain cube row. -/
theorem getRow_natCast {c : List (List ℝ)} {j : ℕ} (hj : j < c.length) :
    getRow c (j : ℤ) = c.getD j [] := by
  unfold getRow
  rw [if_pos (by constructor <;> omega)]
  have htn : ((j : ℤ)).toNat = j := by omega
  rw [htn]

/-- The spectral kernel of a nonempty velocity axis has strictly positive
entries (each entry is a positive exponential over a positive total). -/
theorem gaussV_pos {v : List ℝ} (hv : v ≠ []) (lw : ℝ) :
    ∀ x ∈ gaussV v lw, 0 < x := by
  intro x hx
  simp only [gaussV] at hx
  rcases List.mem_map.mp hx with ⟨y, hy, rfl⟩
  rcases List.mem_map.mp hy with ⟨z, hz, rfl⟩
  apply div_pos (Real.exp_pos _)
  apply sumR_pos
  · simp [hv]
  · intro w hw
    rcases List.mem_map.mp hw with ⟨u, _, rfl⟩
    exact Real.exp_pos _

/-- The spectral kernel of a nonempty velocity axis is nonempty. -/
theorem gaussV_ne_nil {v : List ℝ} (hv : v ≠ []) (lw : ℝ) :
    gaussV v lw ≠ [] := by
  simp only [gaussV]
  simp [hv]

/-- Dividing every image of a function through a scalar divides the sum. -/
theorem sumR_map_div_fun {α : Type} (l : List α) (h : α → ℝ) (s : ℝ) :
    sumR (l.map fun x => h x / s) = sumR (l.map h) / s := by
  induction l with
  | nil => simp [sumR]
  | cons y ys ih =>
    simp only [List.map_cons, sumR, List.foldr_cons] at ih ⊢
    rw [ih]
    ring

/-- Total of a cube with every entry divided by a scalar. -/
theorem sumCube_map_div (c : List (List ℝ)) (s : ℝ) :
    sumCube (c.map (List.map (· / s))) = sumCube c / s := by
  unfold sumCube
  rw [List.map_map]
  have h1 : c.map (sumR ∘ List.map (· / s)) = c.map fun r => sumR r / s := by
    apply List.map_congr_left
    intro r _
    simp only [Function.comp_apply]
    exact sumR_map_div r s
  rw [h1]
  exact sumR_map_div_fun c sumR s

/-- A nonnegative cube has nonnegative total. -/
theorem sumCube_nonneg {c : List (List ℝ)}
    (hc : cubeAll (fun x => 0 ≤ x) c) : 0 ≤ sumCube c := by
  unfold sumCube
  apply sumR_nonneg
  intro x hx
  rcases List.mem_map.mp hx with ⟨r, hr, rfl⟩
  exact sumR_nonneg fun y hy => hc r hr y hy

/-- A nonnegative cube normalised by its own total stays nonnegative. -/
theorem normCube_nonneg {c : List (List ℝ)}
    (hc : cubeAll (fun x => 0 ≤ x) c) :
    cubeAll (fun x => 0 ≤ x) (c.map (List.map (· / sumCube c))) := by
  intro r hr x hx
  rcases List.mem_map.mp hr with ⟨r0, hr0, rfl⟩
  rcases List.mem_map.mp hx with ⟨y, hy, rfl⟩
  exact div_nonneg (hc r0 hr0 y hy) (sumCube_nonneg hc)

/-- A cube normalised by its own total has total at most 1. -/
theorem normCube_sum_le_one (c : List (List ℝ)) :
    sumCube (c.map (List.map (· / sumCube c))) ≤ 1 := by
  rw [sumCube_map_div]
  exact div_self_le_one _

/-- The two-dimensional beam kernel has nonnegative entries. -/
theorem gaussXY2_nonneg (xs ys : List ℝ) (bmaj bmin bpa pa : ℝ) :
    cubeAll (fun x => 0 ≤ x) (gaussXY2 xs ys bmaj bmin bpa pa) := by
  simp only [gaussXY2]
  apply normCube_nonneg
  intro r hr x hx
  rcases List.mem_map.mp hr with ⟨x0, _, rfl⟩
  rcases List.mem_map.mp hx with ⟨y0, _, rfl⟩
  exact (Real.exp_pos _).le

/-- The two-dimensional beam kernel has total at most 1. -/
theorem gaussXY2_sum_le_one (xs ys : List ℝ) (bmaj bmin bpa pa : ℝ) :
    sumCube (gaussXY2 xs ys bmaj bmin bpa pa) ≤ 1 := by
  simp only [gaussXY2]
  exact normCube_sum_le_one _

/-- Every row of the two-dimensional beam kernel has the width of its
first row (the length of the `y` axis). -/
theorem gaussXY2_uniform (xs ys : List ℝ) (bmaj bmin bpa pa : ℝ) :
    ∀ r ∈ gaussXY2 xs ys bmaj bmin bpa pa,
      r.length = ((gaussXY2 xs ys bmaj bmin bpa pa).headD []).length := by
  intro r hr
  simp only [gaussXY2] at hr ⊢
  rcases List.mem_map.mp hr with ⟨r0, hr0, rfl⟩
  rcases List.mem_map.mp hr0 with ⟨x0, hx0, rfl⟩
  cases xs with
  | nil => simp at hx0
  | cons a as => simp

/-- A plane value fetched in two-dimensional coordinates stays inside the
plane's `[0, B]` bounds. -/
theorem getXY_bound {f : List ℝ} {B : ℝ} (hB : 0 ≤ B)
    (hf : ∀ x ∈ f, 0 ≤ x ∧ x ≤ B) (ny : ℕ) (ix iy : ℤ) :
    0 ≤ getXY ny f ix iy ∧ getXY ny f ix iy ≤ B := by
  unfold getXY
  split_ifs with h
  · exact getR_bound hB hf _
  · exact ⟨le_refl 0, hB⟩

/-- One channel of the two-dimensional `same`-mode beam convolution with a
nonnegative kernel of total at most 1 stays inside the input's `[0, B]`
bounds. -/
theorem conv2same_bound {g : List (List ℝ)} {f : List ℝ} {B : ℝ}
    (hB : 0 ≤ B) (hg0 : cubeAll (fun x => 0 ≤ x) g) (hg1 : sumCube g ≤ 1)
    (hgw : ∀ r ∈ g, r.length = (g.headD []).length) (ny : ℕ)
    (hf : ∀ x ∈ f, 0 ≤ x ∧ x ≤ B) :
    ∀ y ∈ conv2same g ny f, 0 ≤ y ∧ y ≤ B := by
  intro y hy
  unfold conv2same at hy
  rcases List.mem_map.mp hy with ⟨j, _, rfl⟩
  have hker : ∀ a : ℕ, ∀ b : ℕ, 0 ≤ getR (getRow g (a : ℤ)) (b : ℤ) :=
    fun a b => getR_nonneg (getRow_nonneg hg0 _) _
  constructor
  · apply Finset.sum_nonneg
    intro a _
    apply Finset.sum_nonneg
    intro b _
    exact mul_nonneg (hker a b) (getXY_bound hB hf ny _ _).1
  · have hstep : ∀ a ∈ Finset.range g.length,
        (∑ b ∈ Finset.range (g.headD []).length,
          getR (getRow g (a : ℤ)) (b : ℤ) *
            getXY ny f (((j / ny : ℕ) : ℤ) + ((g.length - 1) / 2 : ℕ) - a)
              (((j % ny : ℕ) : ℤ) +
                (((g.headD []).length - 1) / 2 : ℕ) - b)) ≤
        ∑ b ∈ Finset.range (g.headD []).length,
          getR (getRow g (a : ℤ)) (b : ℤ) * B := by
      intro a _
      apply Finset.sum_le_sum
      intro b _
      exact mul_le_mul_of_nonneg_left (getXY_bound hB hf ny _ _).2 (hker a b)
    have h2 : (∑ a ∈ Finset.range g.length,
        ∑ b ∈ Finset.range (g.headD []).length,
          getR (getRow g (a : ℤ)) (b : ℤ) * B) = sumCube g * B := by
      rw [sumCube_eq_double g hgw, Finset.sum_mul]
      apply Finset.sum_congr rfl
      intro a _
      rw [Finset.sum_mul]
    have h3 : sumCube g * B ≤ B := by
      have h4 := mul_le_mul_of_nonneg_right hg1 hB
      rwa [one_mul] at h4
    exact le_trans (le_trans (Finset.sum_le_sum hstep) (le_of_eq h2)) h3

/-- The `same`-mode spectral convolution with an everywhere-positive
kernel keeps the maximum of a nonnegative uniform-width cube positive:
the output entry aligned with a positive input entry is bounded below by
the kernel's centre tap times that entry. -/
theorem maxCube_convV_pos {g : List ℝ} {c : List (List ℝ)}
    (hgne : g ≠ []) (hgpos : ∀ x ∈ g, 0 < x)
    (hcnn : cubeAll (fun x => 0 ≤ x) c)
    (hw : ∀ r ∈ c, r.length = (c.headD []).length)
    (hmax : 0 < maxCube c) : 0 < maxCube (convV g c) := by
  rcases maxCube_pos_exists hmax with ⟨r, hr, t, ht, ht0⟩
  rcases List.getElem_of_mem hr with ⟨j0, hj0, hrj⟩
  rcases List.getElem_of_mem ht with ⟨s0, hs0, hts⟩
  have hc0lt : (g.length - 1) / 2 < g.length := by
    have hne : g.length ≠ 0 := by simpa using hgne
    omega
  have hs0w : s0 < (c.headD []).length := by
    have hwr := hw r hr
    omega
  have hrowmem : ((List.range (c.headD []).length).map fun (s : ℕ) =>
      ∑ i ∈ Finset.range g.length,
        getR g i *
          getR (getRow c ((j0 : ℤ) + ((g.length - 1) / 2 : ℕ) - i)) s) ∈
      convV g c := by
    unfold convV
    exact List.mem_map.mpr ⟨j0, List.mem_range.mpr hj0, rfl⟩
  have hentrymem : (∑ i ∈ Finset.range g.length,
      getR g i *
        getR (getRow c ((j0 : ℤ) + ((g.length - 1) / 2 : ℕ) - i))
          (s0 : ℤ)) ∈
      (List.range (c.headD []).length).map fun (s : ℕ) =>
        ∑ i ∈ Finset.range g.length,
          getR g i *
            getR (getRow c ((j0 : ℤ) + ((g.length - 1) / 2 : ℕ) - i)) s :=
    List.mem_map.mpr ⟨s0, List.mem_range.mpr hs0w, rfl⟩
  have hle := le_maxCube hrowmem hentrymem
  have hterm : getR g (((g.length - 1) / 2 : ℕ) : ℤ) *
      getR (getRow c ((j0 : ℤ) + (((g.length - 1) / 2 : ℕ) : ℤ) -
        (((g.length - 1) / 2 : ℕ) : ℤ))) (s0 : ℤ) ≤
      ∑ i ∈ Finset.range g.length,
        getR g i *
          getR (getRow c ((j0 : ℤ) + ((g.length - 1) / 2 : ℕ) - i))
            (s0 : ℤ) :=
    Finset.single_le_sum
      (f := fun i : ℕ => getR g i *
        getR (getRow c ((j0 : ℤ) + ((g.length - 1) / 2 : ℕ) - i)) (s0 : ℤ))
      (fun i _ => mul_nonneg (getR_nonneg (fun x hx => (hgpos x hx).le) _)
        (getR_nonneg (getRow_nonneg hcnn _) _))
      (Finset.mem_range.mpr hc0lt)
  have hidx : ((j0 : ℤ) + (((g.length - 1) / 2 : ℕ) : ℤ) -
      (((g.length - 1) / 2 : ℕ) : ℤ)) = (j0 : ℤ) := by ring
  rw [hidx] at hterm
  have hgmid : 0 < getR g (((g.length - 1) / 2 : ℕ) : ℤ) := by
    rw [getR_natCast hc0lt, List.getD_eq_getElem g 0 hc0lt]
    exact hgpos _ (List.getElem_mem hc0lt)
  have hrow0 : getR (getRow c (j0 : ℤ)) (s0 : ℤ) = t := by
    rw [getRow_natCast hj0, List.getD_eq_getElem c [] hj0, hrj,
      getR_natCast hs0, List.getD_eq_getElem r 0 hs0, hts]
  rw [hrow0] at hterm
  have hpos := mul_pos hgmid ht0
  linarith

/-- A list built by mapping over `List.range` with constant image length
has uniform row width. -/
theorem range_map_uniform {β : Type} (F : ℕ → List β) (n L : ℕ)
    (hF : ∀ j, (F j).length = L) :
    ∀ r ∈ (List.range n).map F,
      r.length = (((List.range n).map F).headD []).length := by
  intro r hr
  rcases List.mem_map.mp hr with ⟨j, hj, rfl⟩
  cases n with
  | zero => simp at hj
  | succ m =>
    rw [List.range_succ_eq_map, List.map_cons, List.headD_cons, hF j, hF 0]

/-- The deposited-and-integrated optical-depth cube has uniform row width:
every velocity channel carries one value per spatial sample. -/
theorem tauv_uniform (dz : ℝ) (vlos rho : List (List ℝ)) (vedge : List ℝ) :
    ∀ r ∈ integrateAlongZ dz (rho2rhocube vlos rho vedge),
      r.length =
        ((integrateAlongZ dz (rho2rhocube vlos rho vedge)).headD
          []).length := by
  have hrw : integrateAlongZ dz (rho2rhocube vlos rho vedge) =
      (List.range (vedge.length - 1)).map fun (k : ℕ) =>
        ((vlos.zip rho).map fun col =>
          (col.1.zip col.2).map fun s =>
            if getR vedge k ≤ s.1 ∧ s.1 < getR vedge (k + 1) then s.2
            else 0).map fun col => dz * sumR col := by
    unfold integrateAlongZ rho2rhocube
    rw [List.map_map]
    rfl
  rw [hrw]
  apply range_map_uniform _ _ (vlos.zip rho).length
  intro j
  rw [List.length_map, List.length_map]

/-- Success-and-bound lemma for the NaN-aware core: when the (possibly
spectrally convolved) optical-depth cube is not identically zero, the
division of line 263 is well defined, the core succeeds, and every entry
of the output lies in `[0, 1 - exp(-taumax)]`. -/
theorem generate_pvd_core2_bounds {taumax : ℝ} {gv : Option (List ℝ)}
    {gxy : Option (List (List ℝ))} {ny nsub : ℕ} {tauv : List (List ℝ)}
    (htm : 0 < taumax) (hnsub : 1 ≤ nsub)
    (htau : cubeAll (fun x => 0 ≤ x) tauv)
    (hgv : ∀ g, gv = some g → ∀ x ∈ g, 0 ≤ x)
    (hgxy : ∀ g, gxy = some g → cubeAll (fun x => 0 ≤ x) g ∧
      sumCube g ≤ 1 ∧ ∀ r ∈ g, r.length = (g.headD []).length)
    (hm : maxCube (match gv with
      | none => tauv
      | some g => convV g tauv) ≠ 0) :
    ∃ out, generate_pvd_core2 taumax gv gxy ny nsub tauv = some out ∧
      cubeAll (fun x => 0 ≤ x ∧ x ≤ 1 - Real.exp (-taumax)) out := by
  have hB : 0 ≤ 1 - Real.exp (-taumax) := by
    have h1 : Real.exp (-taumax) ≤ 1 := by
      rw [Real.exp_le_one_iff]; linarith
    linarith
  have hbeam : ∀ i1 : List (List ℝ), ∀ g,
      cubeAll (fun x => 0 ≤ x ∧ x ≤ 1 - Real.exp (-taumax)) i1 →
      gxy = some g →
      cubeAll (fun x => 0 ≤ x ∧ x ≤ 1 - Real.exp (-taumax))
        (i1.map (conv2same g ny)) := by
    intro i1 g hi1 hg r hr x hx
    rcases List.mem_map.mp hr with ⟨r0, hr0, rfl⟩
    exact conv2same_bound hB (hgxy g hg).1 (hgxy g hg).2.1
      (hgxy g hg).2.2 ny (fun y hy => hi1 _ hr0 y hy) x hx
  rcases gv with _ | g
  · have hm' : maxCube tauv ≠ 0 := hm
    have hi1 := intensity_stage_bounds htm tauv htau
    rcases gxy with _ | gx
    · simp only [generate_pvd_core2]
      rw [if_neg hm']
      exact ⟨_, rfl, slice_block_bounds hB hnsub ny _ hi1⟩
    · simp only [generate_pvd_core2]
      rw [if_neg hm']
      exact ⟨_, rfl, slice_block_bounds hB hnsub ny _ (hbeam _ gx hi1 rfl)⟩
  · have hm' : maxCube (convV g tauv) ≠ 0 := hm
    have htau1 : cubeAll (fun x => 0 ≤ x) (convV g tauv) :=
      convV_nonneg (hgv g rfl) htau
    have hi1 := intensity_stage_bounds htm _ htau1
    rcases gxy with _ | gx
    · simp only [generate_pvd_core2]
      rw [if_neg hm']
      exact ⟨_, rfl, slice_block_bounds hB hnsub ny _ hi1⟩
    · simp only [generate_pvd_core2]
      rw [if_neg hm']
      exact ⟨_, rfl, slice_block_bounds hB hnsub ny _ (hbeam _ gx hi1 rfl)⟩

end Conv2Lemmas

section ClaimIntensity

/-- C3 counterexample evaluation helper: with the single sample velocity
`10` outside every bin edge of the axis `[0, 1, 2]`, no density is
deposited anywhere. -/
theorem rho2rhocube_012_out_eval :
    rho2rhocube [[(10 : ℝ)]] [[(1 : ℝ)]] [-(1/2), 1/2, 3/2, 5/2] =
      [[[0]], [[0]], [[0]]] := by
  norm_num [rho2rhocube, getR, List.range_succ]

/-- C3 counterexample evaluation helper: integrating the all-zero cube. -/
theorem integrateZ_zero_eval :
    integrateAlongZ 1 [[[(0 : ℝ)]], [[0]], [[0]]] = [[0], [0], [0]] := by
  norm_num [integrateAlongZ, sumR]

/-- C3 counterexample: the claim fails on an in-scope input.  With the
velocity axis `[0, 1, 2]` and a single sample of positive density `1`
whose finite line-of-sight velocity `10` lies outside every velocity bin,
the deposited optical-depth cube is identically zero; `np.nanmax(tau_v)`
is then `0` and mockpvd.py line 263 computes `tau_v / np.nanmax(tau_v)`
as `0/0 = NaN`, so the returned PV array is NaN throughout — the explicit
error value `none` of the NaN-aware embedding — and in particular no
array with every element in `[0, 1)` is produced. -/
theorem generate_pvd_nan_counterexample :
    (generate_pvd_opt Precalc2.empty [0, 1, 2] 1 [[(1 : ℝ)]] [[10]] 1 none
      none 0 1 1).1 = none := by
  show generate_pvd_core2 1 none none 1 1
      (integrateAlongZ 1
        (rho2rhocube [[(10 : ℝ)]] [[(1 : ℝ)]] (vedgeOf [0, 1, 2]))) = none
  rw [vedgeOf_012_eval, rho2rhocube_012_out_eval, integrateZ_zero_eval]
  norm_num [generate_pvd_core2, maxCube, maxR]

/-- C3 (amended): from every reachable kernel-cache state (each cached
kernel, when present, is one previously built by the generating code: a
spectral kernel of some nonempty velocity axis, a two-dimensional beam
kernel of some axes and beam parameters), for every positive, finite
input density field and finite line-of-sight velocity field on a nonempty
velocity axis, `generate_pvd` succeeds and every element of its PV array
lies in `[0, 1)` — whether or not the spectral (linewidth) convolution
and the (two-dimensional) beam convolution are applied, and after the
final sub-grid block averaging — PROVIDED the deposited optical-depth
cube is not identically zero, i.e. at least one sample's line-of-sight
velocity falls inside the velocity bin edges.  Without that proviso the
claim is false: the cube is all zero and line 263 divides `0/0`,
producing an all-NaN array (`generate_pvd_nan_counterexample`).  The
deposition and line-integration steps live outside `src/` and are
spec-modelled; the positive scale `taumax` is the code's `taumax`
parameter (default 1). -/
theorem generate_pvd_intensity_bounds (v : List ℝ) (dz : ℝ)
    (rho vlos : List (List ℝ)) (taumax : ℝ) (beam : Option BeamArgs)
    (linewidth : Option ℝ) (pa : ℝ) (ny nsub : ℕ) (st : Precalc2)
    (hdz : 0 ≤ dz) (htm : 0 < taumax) (hnsub : 1 ≤ nsub)
    (hrho : cubeAll (fun x => 0 < x) rho) (hv : v ≠ [])
    (hcv : st.gauss_v = none ∨
      ∃ v2 lw2, v2 ≠ [] ∧ st.gauss_v = some (gaussV v2 lw2))
    (hcxy : st.gauss_xy = none ∨ ∃ xs2 ys2 bmaj2 bmin2 bpa2 pa2,
      st.gauss_xy = some (gaussXY2 xs2 ys2 bmaj2 bmin2 bpa2 pa2))
    (hnz : 0 < maxCube (integrateAlongZ dz
      (rho2rhocube vlos rho (st.vedge.getD (vedgeOf v))))) :
    ∃ out,
      (generate_pvd_opt st v dz rho vlos taumax beam linewidth pa
        ny nsub).1 = some out ∧
      cubeAll (fun x => 0 ≤ x ∧ x < 1) out := by
  have htau : cubeAll (fun x => 0 ≤ x)
      (integrateAlongZ dz
        (rho2rhocube vlos rho (st.vedge.getD (vedgeOf v)))) :=
    integrateAlongZ_nonneg hdz
      (rho2rhocube_nonneg fun r hr x hx => (hrho r hr x hx).le)
  have hwidth := tauv_uniform dz vlos rho (st.vedge.getD (vedgeOf v))
  have hweak : ∀ c : List (List ℝ),
      cubeAll (fun x => 0 ≤ x ∧ x ≤ 1 - Real.exp (-taumax)) c →
      cubeAll (fun x => 0 ≤ x ∧ x < 1) c := by
    intro c hc r hr x hx
    have hexp : 0 < Real.exp (-taumax) := Real.exp_pos _
    exact ⟨(hc r hr x hx).1, by linarith [(hc r hr x hx).2]⟩
  have hK : ∀ lw : ℝ, st.gauss_v.getD (gaussV v lw) ≠ [] ∧
      ∀ x ∈ st.gauss_v.getD (gaussV v lw), 0 < x := by
    intro lw
    rcases hcv with hnone | ⟨v2, lw2, hv2, hsome⟩
    · rw [hnone, Option.getD_none]
      exact ⟨gaussV_ne_nil hv lw, gaussV_pos hv lw⟩
    · rw [hsome, Option.getD_some]
      exact ⟨gaussV_ne_nil hv2 lw2, gaussV_pos hv2 lw2⟩
  have hG : ∀ b : BeamArgs, cubeAll (fun x => 0 ≤ x)
        (st.gauss_xy.getD (gaussXY2 b.xs b.ys b.bmaj b.bmin b.bpa pa)) ∧
      sumCube
        (st.gauss_xy.getD (gaussXY2 b.xs b.ys b.bmaj b.bmin b.bpa pa)) ≤
        1 ∧
      ∀ r ∈ st.gauss_xy.getD (gaussXY2 b.xs b.ys b.bmaj b.bmin b.bpa pa),
        r.length =
          ((st.gauss_xy.getD
            (gaussXY2 b.xs b.ys b.bmaj b.bmin b.bpa pa)).headD
            []).length := by
    intro b
    rcases hcxy with hnone | ⟨xs2, ys2, bmaj2, bmin2, bpa2, pa2, hsome⟩
    · rw [hnone, Option.getD_none]
      exact ⟨gaussXY2_nonneg _ _ _ _ _ _, gaussXY2_sum_le_one _ _ _ _ _ _,
        gaussXY2_uniform _ _ _ _ _ _⟩
    · rw [hsome, Option.getD_some]
      exact ⟨gaussXY2_nonneg _ _ _ _ _ _, gaussXY2_sum_le_one _ _ _ _ _ _,
        gaussXY2_uniform _ _ _ _ _ _⟩
  rcases linewidth with _ | lw
  · rcases beam with _ | b
    · simp only [generate_pvd_opt]
      rcases @generate_pvd_core2_bounds taumax none none ny nsub _
          htm hnsub htau
          (fun g hg => absurd hg (by simp))
          (fun g hg => absurd hg (by simp))
          (ne_of_gt hnz) with ⟨out, hout, hb⟩
      exact ⟨out, hout, hweak out hb⟩
    · simp only [generate_pvd_opt]
      rcases @generate_pvd_core2_bounds taumax none
          (some (st.gauss_xy.getD
            (gaussXY2 b.xs b.ys b.bmaj b.bmin b.bpa pa))) ny nsub _
          htm hnsub htau
          (fun g hg => absurd hg (by simp))
          (fun g hg => by
            rw [Option.some.injEq] at hg
            subst hg
            exact hG b)
          (ne_of_gt hnz) with ⟨out, hout, hb⟩
      exact ⟨out, hout, hweak out hb⟩
  · have hKlw := hK lw
    have hmpos : 0 < maxCube (convV (st.gauss_v.getD (gaussV v lw))
        (integrateAlongZ dz
          (rho2rhocube vlos rho (st.vedge.getD (vedgeOf v))))) :=
      maxCube_convV_pos hKlw.1 hKlw.2 htau hwidth hnz
    rcases beam with _ | b
    · simp only [generate_pvd_opt]
      rcases @generate_pvd_core2_bounds taumax
          (some (st.gauss_v.getD (gaussV v lw))) none ny nsub _
          htm hnsub htau
          (fun g hg => by
            rw [Option.some.injEq] at hg
            subst hg
            exact fun x hx => (hKlw.2 x hx).le)
          (fun g hg => absurd hg (by simp))
          (ne_of_gt hmpos) with ⟨out, hout, hb⟩
      exact ⟨out, hout, hweak out hb⟩
    · simp only [generate_pvd_opt]
      rcases @generate_pvd_core2_bounds taumax
          (some (st.gauss_v.getD (gaussV v lw)))
          (some (st.gauss_xy.getD
            (gaussXY2 b.xs b.ys b.bmaj b.bmin b.bpa pa))) ny nsub _
          htm hnsub htau
          (fun g hg => by
            rw [Option.some.injEq] at hg
            subst hg
            exact fun x hx => (hKlw.2 x hx).le)
          (fun g hg => by
            rw [Option.some.injEq] at hg
            subst hg
            exact hG b)
          (ne_of_gt hmpos) with ⟨out, hout, hb⟩
      exact ⟨out, hout, hweak out hb⟩

/-- C3 witness on a fresh cache: one sample of density 1 whose velocity 0
lands inside the first bin of the axis `[0, 1]`; both convolutions off. -/
theorem generate_pvd_intensity_bounds_witness :
    ∃ out,
      (generate_pvd_opt Precalc2.empty [0, 1] 1 [[(1 : ℝ)]] [[0]] 1 none
        none 0 1 1).1 = some out ∧
      cubeAll (fun x => 0 ≤ x ∧ x < 1) out :=
  generate_pvd_intensity_bounds [0, 1] 1 [[(1 : ℝ)]] [[0]] 1 none none 0
    1 1 Precalc2.empty (by norm_num) (by norm_num) (le_refl 1)
    (by
      intro r hr x hx
      rw [List.mem_singleton] at hr
      subst hr
      rw [List.mem_singleton] at hx
      subst hx
      norm_num)
    (by simp)
    (Or.inl rfl) (Or.inl rfl)
    (by norm_num [Precalc2.empty, vedgeOf, rho2rhocube, integrateAlongZ,
      maxCube, maxR, sumR, getR, List.range_succ])

end ClaimIntensity
